import Mathlib

/-!
Shallow embedding of the slowdb storage and indexing core
(`src/slowdb/core/storage.py`, `core/lsm.py`, `core/vector_store.py`,
`index/hnsw.py`, `index/metrics.py`), with theorems checking the
specification's claims against it.

Modeling conventions used throughout:
* Python `dict`s are insertion-ordered association lists (`List (key × value)`);
  Python `set`s of ids are insertion-ordered duplicate-free lists, and code
  that iterates over a set iterates in that order (CPython's set order is
  hash-dependent; every concrete example evaluated below is chosen so the
  outcome is independent of that order, e.g. all compared distances distinct).
* Python exceptions are modeled with `Except PyErr`. `PyErr.fuel` is not a
  Python error: it marks exhaustion of the explicit fuel that embeds `while`
  loops, and does not occur when the fuel is large enough.
* IEEE-754 doubles are modeled by a linearly ordered scalar type, instantiated
  at `ℤ` in concrete evaluations (double arithmetic on small integers is
  exact, so those runs match the Python ones bit for bit).
-/

namespace SlowDB

/-- JSON-serializable Python values stored in the LSM tree. `PyVal.none`
doubles as Python `None` and JSON `null` (which `json.loads` decodes to
`None`). -/
inductive PyVal where
  | none
  | int (n : ℤ)
  | str (s : String)
deriving DecidableEq

/-- Python exceptions raised by the embedded code. `fuel` is an embedding
artifact marking loop-fuel exhaustion, not a Python exception. -/
inductive PyErr where
  | attributeError (msg : String)
  | typeError (msg : String)
  | valueError (msg : String)
  | keyError (key : String)
  | indexError
  | fuel
deriving DecidableEq

deriving instance DecidableEq for Except

/-- Python dict lookup `d.get(k)`: the value at the first (unique) matching
key. -/
def dictGet? {κ β : Type} [DecidableEq κ] (d : List (κ × β)) (k : κ) : Option β :=
  (d.find? (fun p => p.1 = k)).map (fun p => p.2)

/-- Python `k in d`. -/
def dictContains {κ β : Type} [DecidableEq κ] (d : List (κ × β)) (k : κ) : Bool :=
  d.any (fun p => p.1 = k)

/-- Python `d[k] = v`: overwrite in place when the key exists, else append
(dicts preserve insertion order). -/
def dictSet {κ β : Type} [DecidableEq κ] (d : List (κ × β)) (k : κ) (v : β) : List (κ × β) :=
  if dictContains d k then d.map (fun p => if p.1 = k then (k, v) else p) else d ++ [(k, v)]

/-- Python `d[k]` on a string-keyed dict: `KeyError` when absent. -/
def dictItem {β : Type} (d : List (String × β)) (k : String) : Except PyErr β :=
  match dictGet? d k with
  | some v => .ok v
  | Option.none => .error (.keyError k)

/-- Python `d[k]` on an int-keyed dict: `KeyError` when absent. -/
def dictItemNat {β : Type} (d : List (Nat × β)) (k : Nat) : Except PyErr β :=
  match dictGet? d k with
  | some v => .ok v
  | Option.none => .error (.keyError "int key")

/-! ## SSTable and LSMTree (core/lsm.py) -/

/-- `SSTable` (lsm.py 9-39). `file` models the `.sst` file on disk as its
sequence of one-key JSON records, `index` the in-memory `key → offset` dict.
Offsets are counted in records rather than bytes: the byte offsets written by
`SSTable.write` enumerate the records in file order, so the two are in an
order-preserving bijection and every claim below is invariant under it.
`dataAttr` models the dynamically assigned `data` attribute that
`LSMTree._compact_level` reads; it is absent (`Option.none`) on every table
built by `__init__` or `write`. -/
structure SSTable where
  level : Nat
  table_id : Nat
  file : List (String × PyVal)
  index : List (String × Nat)
  dataAttr : Option (List (String × PyVal)) := Option.none
deriving DecidableEq

/-- `SSTable.__init__` (lsm.py 12-17): empty index, nothing read from disk. -/
def SSTable.init (level table_id : Nat) : SSTable :=
  { level := level, table_id := table_id, file := [], index := [] }

/-- `SSTable.__init__` as called by `LSMTree._load_existing_tables`
(lsm.py 58-61) when reopening a table whose file is on disk: the constructor
sets `self.index = {}` and no code ever rebuilds the index from the file. -/
def SSTable.reopen (level table_id : Nat) (file : List (String × PyVal)) : SSTable :=
  { level := level, table_id := table_id, file := file, index := [] }

/-- Insertion sort of records by key, modeling `sorted(data.items())`
(lsm.py 24); dict keys are unique, so the tuple-order tie-break on values
never fires. -/
def insertByKey (x : String × PyVal) : List (String × PyVal) → List (String × PyVal)
  | [] => [x]
  | y :: ys => if x.1 ≤ y.1 then x :: y :: ys else y :: insertByKey x ys

def sortByKey : List (String × PyVal) → List (String × PyVal)
  | [] => []
  | x :: xs => insertByKey x (sortByKey xs)

/-- `SSTable.write` (lsm.py 19-28): writes the records sorted by key and
records each record's offset in the in-memory index. -/
def SSTable.write (t : SSTable) (data : List (String × PyVal)) : SSTable :=
  let sorted := sortByKey data
  { t with file := sorted, index := sorted.enum.map (fun p => (p.2.1, p.1)) }

/-- `SSTable.get` (lsm.py 30-39): a key absent from the index yields `None`;
otherwise seek to the indexed offset, parse the record there, and return
`entry[key]` — a `KeyError` if the record's key differs from the probe key,
and a decode failure if the offset is past the end of the file. -/
def SSTable.get (t : SSTable) (key : String) : Except PyErr PyVal :=
  match dictGet? t.index key with
  | Option.none => .ok PyVal.none
  | some off =>
    match t.file[off]? with
    | Option.none => .error (.valueError "json decode error")
    | some entry => if entry.1 = key then .ok entry.2 else .error (.keyError key)

/-- An SSTable whose index is consistent with its file: every indexed offset
points at a record bearing the indexed key. `write` establishes this, and a
reopened table satisfies it vacuously (its index is empty). -/
def SSTable.WF (t : SSTable) : Prop :=
  ∀ p ∈ t.index, (t.file[p.2]?).map (fun e => e.1) = some p.1

instance (t : SSTable) : Decidable t.WF :=
  inferInstanceAs (Decidable (∀ p ∈ t.index, (t.file[p.2]?).map (fun e => e.1) = some p.1))

/-- The state of `LSMTree` (lsm.py 41-156). `levels` models the
`defaultdict(list)` (missing levels read as `[]`). `max_level` models the
instance attribute that `_load_existing_tables` and `get` read;
`LSMTree.__init__` never assigns it (see `lsmInit`), so it can only be present
on states where it was assigned externally. -/
structure LSMState where
  memtable : List (String × PyVal)
  immutable_memtables : List (List (String × PyVal))
  levels : List (List SSTable)
  max_level : Nat
deriving DecidableEq

/-- `LSMTree.__init__` (lsm.py 44-51): it calls `_load_existing_tables`,
whose first statement reads `self.max_level` — an attribute no code ever
assigns — so construction always raises `AttributeError`. -/
def lsmInit : Except PyErr LSMState :=
  .error (.attributeError "LSMTree object has no attribute max_level")

/-- The immutable-memtable probe of `LSMTree.get` (lsm.py 75-77): the FIRST
table in list order containing the key wins — and list order is oldest first,
because `_maybe_flush` (lsm.py 91) appends the newest at the end. -/
def probeImms : List (List (String × PyVal)) → String → Option PyVal
  | [], _ => Option.none
  | t :: ts, k =>
    if dictContains t k then some ((dictGet? t k).getD PyVal.none)
    else probeImms ts k

/-- The inner SSTable probe of `LSMTree.get` (lsm.py 81-84): a value that
`is not None` is returned; a `None` (key absent, or stored JSON null) is
skipped. -/
def probeTables : List SSTable → String → Except PyErr (Option PyVal)
  | [], _ => .ok Option.none
  | t :: ts, k => do
    let v ← t.get k
    if v ≠ PyVal.none then pure (some v) else probeTables ts k

/-- The level loop of `LSMTree.get` (lsm.py 80-84): levels `0, 1, ...` in
order, each level's table list probed in reverse (newest, i.e. last appended,
first). -/
def probeLevels : List (List SSTable) → String → Except PyErr (Option PyVal)
  | [], _ => .ok Option.none
  | lvl :: rest, k => do
    match ← probeTables lvl.reverse k with
    | some v => pure (some v)
    | Option.none => probeLevels rest k

/-- `LSMTree.get` (lsm.py 68-86). -/
def lsmGet (s : LSMState) (k : String) : Except PyErr PyVal := do
  if dictContains s.memtable k then
    pure ((dictGet? s.memtable k).getD PyVal.none)
  else
    match probeImms s.immutable_memtables k with
    | some v => pure v
    | Option.none =>
      match ← probeLevels ((List.range s.max_level).map (fun l => s.levels.getD l [])) k with
      | some v => pure v
      | Option.none => pure PyVal.none

/-- The attribute access `table.data` in `_compact_level` (lsm.py 134):
tables built by `__init__` or `write` have no such attribute. -/
def SSTable.dataAccess (t : SSTable) : Except PyErr (List (String × PyVal)) :=
  match t.dataAttr with
  | some d => .ok d
  | Option.none => .error (.attributeError "SSTable object has no attribute data")

/-- The `merged_data.update(table.data)` loop of `_compact_level`
(lsm.py 132-134). -/
def mergeDataAttrs : List SSTable → List (String × PyVal) → Except PyErr (List (String × PyVal))
  | [], acc => .ok acc
  | t :: ts, acc => do
    let d ← t.dataAccess
    mergeDataAttrs ts (d.foldl (fun m p => dictSet m p.1 p.2) acc)

/-- `LSMTree._compact_level` (lsm.py 125-156). On a nonempty level this
always raises: each source table lacks the `data` attribute. Were that
repaired, the two-argument constructor call `SSTable(self.base_path,
level + 1)` (lsm.py 137) would raise `TypeError` — `__init__` requires
`table_id` — and `new_table.flush()` (lsm.py 142) does not exist either, so
the merge, file deletions and level updates are never reached. -/
def compactLevel (s : LSMState) (level : Nat) : Except PyErr LSMState := do
  let tables := s.levels.getD level []
  if tables.isEmpty then pure s
  else do
    let merged ← mergeDataAttrs tables []
    if merged.isEmpty then pure s
    else .error (.typeError "SSTable init missing 1 required positional argument table_id")

/-- `LSMTree._maybe_compact_level` (lsm.py 119-123): compact when the level
holds more than `4 ** level` tables. -/
def maybeCompactLevel (s : LSMState) (level : Nat) : Except PyErr LSMState :=
  if 4 ^ level < (s.levels.getD level []).length then compactLevel s level else pure s

/-! Spec-side descriptions of the probe order, used to state claims C3 and
C10. They are written from the (amended) claim's words, not from the code, and
are compared with `lsmGet` by theorem. -/

/-- Spec-side: the value one SSTable probe yields for `k` — the stored value,
`PyVal.none` when the key is absent (errors cannot occur on well-formed
tables; they are mapped to `none`). -/
def tableValue (t : SSTable) (k : String) : PyVal :=
  match t.get k with
  | .ok v => v
  | .error _ => PyVal.none

/-- Spec-side: the first non-null hit over a sequence of tables; tables whose
value for `k` is null (absent key, or a stored JSON null) are skipped. -/
def sstHit : List SSTable → String → Option PyVal
  | [], _ => Option.none
  | t :: ts, k =>
    match tableValue t k with
    | PyVal.none => sstHit ts k
    | v => some v

/-- The full SSTable probe sequence of `LSMTree.get`, flattened: levels
`0, ..., max_level - 1` in order, newest table first within each level. -/
def sstSeq (s : LSMState) : List SSTable :=
  ((List.range s.max_level).map (fun l => s.levels.getD l [])).flatMap (fun lvl => lvl.reverse)

/-- The probe order stated by the amended claim C3, as a first-hit chain over
the three sources: the active memtable; then the immutable memtables in list
order, which is OLDEST first; then the flattened SSTable sequence `sstSeq`
(levels in order, newest table first within a level, stored nulls skipped).
`PyVal.none` is returned when no source holds the key. -/
def lsmGetSpec (s : LSMState) (k : String) : PyVal :=
  ((dictGet? s.memtable k <|>
      (s.immutable_memtables.find? (fun t => dictContains t k)).map
        (fun t => (dictGet? t k).getD PyVal.none)) <|>
    sstHit (sstSeq s) k).getD PyVal.none

/-! ## SegmentFile (core/storage.py) -/

/-- `SegmentFile.HEADER_SIZE = struct.calcsize("=Q")` (storage.py 10-11). -/
def HEADER_SIZE : Nat := 8

/-- `SegmentFile` (storage.py 7-58): `bytes` is the mmap'd file content,
`_size` the size tracked in `self._size` (storage.py 37). -/
structure SegmentFile where
  bytes : List Nat
  _size : Nat
deriving DecidableEq

/-- `SegmentFile.__init__` with `create=True` (storage.py 13-37): open with
mode `'w+b'` (truncating), write the 8-byte zero header `struct.pack("=Q", 0)`,
then take the size from `os.path.getsize` — which now returns 8. -/
def segCreate : SegmentFile :=
  let header := List.replicate HEADER_SIZE 0
  { bytes := header, _size := header.length }

/-- `SegmentFile.__init__` with `create=False`: mmap the existing file at its
current length. -/
def segOpen (file : List Nat) : SegmentFile :=
  { bytes := file, _size := file.length }

/-- `SegmentFile.append` (storage.py 39-45): the returned offset is the
pre-append `_size`; the mapping is resized and the data written at its end. -/
def SegmentFile.append (s : SegmentFile) (data : List Nat) : SegmentFile × Nat :=
  ({ bytes := s.bytes ++ data, _size := s._size + data.length }, s._size)

/-- `SegmentFile.read` (storage.py 47-51): empty for `offset >= _size`, else
the slice `[offset, min(offset + size, _size))`. -/
def SegmentFile.read (s : SegmentFile) (offset size : Nat) : List Nat :=
  if s._size ≤ offset then []
  else (s.bytes.take (min (offset + size) s._size)).drop offset

/-! ## VectorStorage and VectorCompressor (core/vector_store.py) -/

/-- `VectorCompressor` (vector_store.py 106-127); only the fields its
training guard reads are modeled — the k-means codebooks live inside
sklearn. -/
structure VectorCompressor where
  dimension : Nat
  n_subvectors : Nat
  n_clusters : Nat
  is_trained : Bool
deriving DecidableEq

/-- The message of the `ValueError` raised by the two training guards
(vector_store.py 36 and 146); the spec names this error
`InsufficientTraining`. -/
def insufficientTrainingMsg : String := "Need at least n_clusters training vectors"

/-- `VectorCompressor.train` (vector_store.py 143-169): the guard, then
normalization and the `MiniBatchKMeans` fit (an external sklearn call,
modeled as succeeding), then `is_trained = True`. -/
def VectorCompressor.train {α : Type} (c : VectorCompressor) (vectors : List (List α)) :
    Except PyErr VectorCompressor :=
  if vectors.length < c.n_clusters then .error (.valueError insufficientTrainingMsg)
  else .ok { c with is_trained := true }

/-- `VectorStorage` (vector_store.py 7-104). `store_vector` reads only the
dimension and the active segment before it raises (and would reach the LSM
tree only after a successful append), so only those fields are modeled. -/
structure VectorStorage where
  dimension : Nat
  active_segment : Option SegmentFile
  compressor : VectorCompressor
deriving DecidableEq

/-- `VectorStorage.train_compression` (vector_store.py 33-37): the same guard
as the compressor's, then delegation to `VectorCompressor.train`. -/
def train_compression {α : Type} (st : VectorStorage) (vectors : List (List α)) :
    Except PyErr VectorStorage :=
  if vectors.length < st.compressor.n_clusters then .error (.valueError insufficientTrainingMsg)
  else do
    let c ← st.compressor.train vectors
    pure { st with compressor := c }

/-- The dimension handling of `store_vector` (vector_store.py 41-42): a
vector whose length differs from the configured dimension is sliced to
`vector[:dimension]` — no error is raised. (Slicing only truncates; a shorter
vector passes through unchanged.) -/
def dimAdjust {α : Type} (dim : Nat) (v : List α) : List α :=
  if v.length ≠ dim then v.take dim else v

/-- `VectorStorage.store_vector` (vector_store.py 39-54). After the dimension
handling and `astype(np.float64).tobytes()`, the call
`self.active_segment.write(vector_bytes)` raises `AttributeError`:
`SegmentFile` defines `append`, `read` and `close` but no `write`. (The
falsy branch's `SegmentFile.create(...)` does not exist either.)
`self.lsm_tree.put` is never reached. -/
def store_vector {α : Type} (st : VectorStorage) (_vector_id : String) (vector : List α) :
    Except PyErr Unit :=
  let _vec := dimAdjust st.dimension vector
  match st.active_segment with
  | Option.none => .error (.attributeError "type object SegmentFile has no attribute create")
  | some _ => .error (.attributeError "SegmentFile object has no attribute write")

/-! ## HNSW graph (index/hnsw.py, index/metrics.py)

The scalar type `α` stands for the IEEE-754 doubles the source computes
distances in; the graph code only compares distances, so any linear order
with the source metric's values embeds a run faithfully. Concrete runs below
use `ℤ` (integer-valued doubles are exact). -/

/-- `SearchResult` (hnsw.py 7-14): `__lt__` compares the distance alone. -/
structure SearchResult (α : Type) where
  id : String
  distance : α
deriving DecidableEq

instance {α : Type} [Inhabited α] : Inhabited (SearchResult α) := ⟨⟨"", default⟩⟩

section HNSW

variable {α : Type} [LinearOrder α] [Inhabited α]

/-- `heapq._siftdown(heap, startpos, pos)`: bubble `item` up from `pos`
toward `startpos`. The structural fuel stands for the strictly decreasing
`pos` — the parent index `(pos - 1) / 2` is smaller, so calling with
`fuel = pos` reproduces the Python loop exactly. -/
def siftdown (item : SearchResult α) (startpos : Nat) :
    Nat → Nat → List (SearchResult α) → List (SearchResult α)
  | 0, pos, heap => heap.set pos item
  | fuel + 1, pos, heap =>
    if startpos < pos then
      if item.distance < (heap.getD ((pos - 1) / 2) default).distance then
        siftdown item startpos fuel ((pos - 1) / 2)
          (heap.set pos (heap.getD ((pos - 1) / 2) default))
      else heap.set pos item
    else heap.set pos item

/-- `heapq.heappush(heap, item)`: append, then sift down from the last slot. -/
def heappush (heap : List (SearchResult α)) (item : SearchResult α) : List (SearchResult α) :=
  siftdown item 0 heap.length heap.length (heap ++ [item])

/-- The child slot `_siftup` moves to from `pos`: the right child
`2 * pos + 2` when it exists and the left child is not smaller (Python's
`not heap[childpos] < heap[rightpos]`), else the left child `2 * pos + 1`. -/
def suChild (pos endpos : Nat) (heap : List (SearchResult α)) : Nat :=
  if 2 * pos + 2 < endpos ∧
      ¬ (heap.getD (2 * pos + 1) default).distance < (heap.getD (2 * pos + 2) default).distance
  then 2 * pos + 2 else 2 * pos + 1

/-- The descending phase of `heapq._siftup(heap, pos)`: walk the
smaller-child chain down from `pos`, returning the updated heap and the final
position. Fuel as in `siftdown` (`endpos` suffices: the child index is larger
than `pos`). -/
def siftupDescend : Nat → Nat → Nat → List (SearchResult α) → List (SearchResult α) × Nat
  | 0, pos, _, heap => (heap, pos)
  | fuel + 1, pos, endpos, heap =>
    if 2 * pos + 1 < endpos then
      siftupDescend fuel (suChild pos endpos heap) endpos
        (heap.set pos (heap.getD (suChild pos endpos heap) default))
    else (heap, pos)

/-- `heapq._siftup(heap, pos)`: descend to a leaf, place `newitem` there, then
sift it down toward the original position. -/
def siftup (pos : Nat) (heap : List (SearchResult α)) : List (SearchResult α) :=
  siftdown (heap.getD pos default) pos (siftupDescend heap.length pos heap.length heap).2
    (siftupDescend heap.length pos heap.length heap).2
    ((siftupDescend heap.length pos heap.length heap).1.set
      (siftupDescend heap.length pos heap.length heap).2 (heap.getD pos default))

/-- `heapq.heappop(heap)`: pop the last element; if the heap is still
nonempty, move it to the root and sift up, returning the old root. Python
raises `IndexError` on an empty heap; both call sites guard on nonemptiness,
so the empty case is `Option.none` here. -/
def heappop (heap : List (SearchResult α)) : Option (SearchResult α × List (SearchResult α)) :=
  match heap with
  | [] => Option.none
  | _ :: _ =>
    if heap.dropLast.length = 0 then some (heap.getD (heap.length - 1) default, [])
    else some (heap.dropLast.getD 0 default,
      siftup 0 (heap.dropLast.set 0 (heap.getD (heap.length - 1) default)))

/-- Stable insertion by ascending distance: ties keep the earlier element
first, modeling Python's stable `sorted` on `SearchResult.__lt__`. -/
def insertAsc (x : SearchResult α) : List (SearchResult α) → List (SearchResult α)
  | [] => [x]
  | y :: ys => if x.distance ≤ y.distance then x :: y :: ys else y :: insertAsc x ys

/-- `sorted(results)` (hnsw.py 89 and 50). -/
def sortResults : List (SearchResult α) → List (SearchResult α)
  | [] => []
  | x :: xs => insertAsc x (sortResults xs)

/-- `HNSWGraph` (hnsw.py 16-38). `metric` is the `DistanceMetric` callable
chosen at construction; `M_max0` is computed as `2 * M` by `__init__`. -/
structure HNSWGraph (α : Type) where
  dim : Nat
  M : Nat
  M_max0 : Nat
  ef_construction : Nat
  ml_max : Nat
  metric : List α → List α → α
  nodes : List (String × List α)
  layers : List (Nat × List String)
  neighbors : List (String × List (Nat × List String))
  entry_point : Option String
  max_layer : Nat

/-- The running state of `_search_layer`: the `visited` set and the two
heaps. -/
structure SLState (α : Type) where
  visited : List String
  candidates : List (SearchResult α)
  results : List (SearchResult α)

/-- `dist < furthest_dist` where `Option.none` stands for `float('inf')`. -/
def ltOptInf (d : α) : Option α → Bool
  | Option.none => true
  | some f => decide (d < f)

/-- `current.distance > furthest_dist`. -/
def gtOptInf (d : α) : Option α → Bool
  | Option.none => false
  | some f => decide (f < d)

/-- The `if len(self.results) > ef: heapq.heappop(results)` step
(hnsw.py 86-87). Note it pops the SMALLEST result — the results heap is a
min-heap, one of the source's heap-polarity quirks. The heap is nonempty
right after a push, so the unreachable empty case returns it unchanged
(Python would raise `IndexError`). -/
def resultsPushPop (ef : Nat) (res : List (SearchResult α)) : List (SearchResult α) :=
  if ef < res.length then
    match heappop res with
    | some pr => pr.2
    | Option.none => res
  else res

/-- The neighbor `for` loop inside `_search_layer`'s `while` (hnsw.py 76-87).
`furthest` is the `furthest_dist` captured before the loop. Each unvisited
neighbor is added to `visited`, its distance computed, and, when the result
set is not full (`len(results) < ef`, the results being untouched by the
visited update) or the distance beats `furthest`, pushed onto both heaps,
dropping a result via `resultsPushPop` when the result set exceeds `ef`. -/
def processNeighbors (g : HNSWGraph α) (query : List α) (ef : Nat) (furthest : Option α) :
    List String → SLState α → Except PyErr (SLState α)
  | [], st => .ok st
  | n :: ns, st =>
    if n ∈ st.visited then processNeighbors g query ef furthest ns st
    else do
      let vn ← dictItem g.nodes n
      if decide (st.results.length < ef) || ltOptInf (g.metric query vn) furthest then
        processNeighbors g query ef furthest ns
          ⟨n :: st.visited,
           heappush st.candidates ⟨n, g.metric query vn⟩,
           resultsPushPop ef (heappush st.results ⟨n, g.metric query vn⟩)⟩
      else processNeighbors g query ef furthest ns ⟨n :: st.visited, st.candidates, st.results⟩

/-- `furthest_dist = results[-1].distance if len(results) >= ef else
float('inf')` (hnsw.py 70). `results[-1]` is the LAST slot of the heap's
backing list (not its maximum — one of the source's quirks), an `IndexError`
when the list is empty; `Option.none` models `float('inf')`. -/
def furthestDist (ef : Nat) (results : List (SearchResult α)) : Except PyErr (Option α) :=
  if ef ≤ results.length then
    match results.getLast? with
    | some r => .ok (some r.distance)
    | Option.none => .error PyErr.indexError
  else .ok Option.none

/-- The `while candidates:` loop of `_search_layer` (hnsw.py 68-87), fueled. -/
def searchLoop (g : HNSWGraph α) (query : List α) (ef layer : Nat) :
    Nat → SLState α → Except PyErr (List (SearchResult α))
  | 0, _ => .error .fuel
  | fuel + 1, st =>
    match heappop st.candidates with
    | Option.none => .ok st.results
    | some (current, cands) => do
      let furthest ← furthestDist ef st.results
      if gtOptInf current.distance furthest then .ok st.results
      else do
        let layerDict ← dictItem g.neighbors current.id
        let st2 ← processNeighbors g query ef furthest ((dictGet? layerDict layer).getD [])
          ⟨st.visited, cands, st.results⟩
        searchLoop g query ef layer fuel st2

/-- `HNSWGraph._search_layer` (hnsw.py 52-89). -/
def searchLayer (g : HNSWGraph α) (query : List α) (entry : String) (ef layer fuel : Nat) :
    Except PyErr (List (SearchResult α)) := do
  let ve ← dictItem g.nodes entry
  let er : SearchResult α := ⟨entry, g.metric query ve⟩
  let st : SLState α := ⟨[entry], heappush [] er, heappush [] er⟩
  let res ← searchLoop g query ef layer fuel st
  pure (sortResults res)

/-- The greedy top-layers descent of `search` (hnsw.py 156-158): search each
layer `max_layer, ..., 1` with `ef = 1` and restart from the nearest hit
(`results[0]`, an `IndexError` were the result list empty). -/
def searchDescend (g : HNSWGraph α) (query : List α) (fuel : Nat) :
    List Nat → String → Except PyErr String
  | [], curr => .ok curr
  | l :: ls, curr => do
    let rs ← searchLayer g query curr 1 l fuel
    match rs with
    | [] => .error .indexError
    | r :: _ => searchDescend g query fuel ls r.id

/-- `HNSWGraph.search` (hnsw.py 148-162). `if not self.entry_point` is a
Python falsiness test: both `None` and an empty-string id short-circuit to
`[]`. -/
def hnswSearch (g : HNSWGraph α) (query : List α) (k fuel : Nat) :
    Except PyErr (List (String × α)) :=
  match g.entry_point with
  | Option.none => .ok []
  | some ep =>
    if ep = "" then .ok []
    else do
      let curr ← searchDescend g query fuel (List.range' 1 g.max_layer).reverse ep
      let rs ← searchLayer g query curr k 0 fuel
      pure ((rs.take k).map (fun r => (r.id, r.distance)))

/-- Python `set.add` on an insertion-ordered set. -/
def setAdd (s : List String) (x : String) : List String :=
  if x ∈ s then s else s ++ [x]

/-- `HNSWGraph._select_neighbors` (hnsw.py 44-50): ids of the `M`
smallest-distance candidates, `sorted(candidates)[:M]`. -/
def select_neighbors (candidates : List (SearchResult α)) (M : Nat) : List String :=
  ((sortResults candidates).take M).map (fun c => c.id)

/-- One pass of the greedy `for` loop (hnsw.py 126-131): scan the neighbor
list fixed at loop entry, tightening `(curr, curr_dist)` whenever a strictly
closer node appears. -/
def greedyPass (g : HNSWGraph α) (vector : List α) :
    List String → String × α × Bool → Except PyErr (String × α × Bool)
  | [], acc => .ok acc
  | n :: ns, (curr, curr_dist, changed) => do
    let vn ← dictItem g.nodes n
    let d := g.metric vector vn
    if d < curr_dist then greedyPass g vector ns (n, d, true)
    else greedyPass g vector ns (curr, curr_dist, changed)

/-- The `while changed:` greedy descent at one layer (hnsw.py 121-131),
fueled: each iteration re-reads the neighbors of the current node. -/
def greedyLoop (g : HNSWGraph α) (vector : List α) (l : Nat) :
    Nat → String × α → Except PyErr (String × α)
  | 0, _ => .error .fuel
  | fuel + 1, (curr, curr_dist) => do
    let layerDict ← dictItem g.neighbors curr
    let nbrs := (dictGet? layerDict l).getD []
    let res ← greedyPass g vector nbrs (curr, curr_dist, false)
    if res.2.2 then greedyLoop g vector l fuel (res.1, res.2.1)
    else .ok (res.1, res.2.1)

/-- The bidirectional-edge loop of `insert` (hnsw.py 139-141):
`neighbors[id][l].add(nb)` and `neighbors[nb][l].add(id)`. NOTE: the
neighbor's set is never re-pruned after gaining the reverse edge. -/
def connectAt (id : String) (l : Nat) : HNSWGraph α → List String → Except PyErr (HNSWGraph α)
  | g, [] => .ok g
  | g, nb :: rest => do
    let myLayers ← dictItem g.neighbors id
    let mySet ← dictItemNat myLayers l
    let g1 : HNSWGraph α :=
      { g with neighbors := dictSet g.neighbors id (dictSet myLayers l (setAdd mySet nb)) }
    let nbLayers ← dictItem g1.neighbors nb
    let nbSet ← dictItemNat nbLayers l
    let g2 : HNSWGraph α :=
      { g1 with neighbors := dictSet g1.neighbors nb (dictSet nbLayers l (setAdd nbSet id)) }
    connectAt id l g2 rest

/-- The per-layer loop of `insert` (hnsw.py 120-141), top layer first: greedy
descent at every layer, and at layers `l ≤ level` additionally a
`_search_layer` call, neighbor selection (`M_max0` at layer 0, `M` above) and
bidirectional connection. -/
def insertLoop (id : String) (vector : List α) (level fuel : Nat) :
    HNSWGraph α → List Nat → String × α → Except PyErr (HNSWGraph α)
  | g, [], _ => .ok g
  | g, l :: ls, cd => do
    let cd2 ← greedyLoop g vector l fuel cd
    if l ≤ level then do
      let cands ← searchLayer g vector cd2.1 g.ef_construction l fuel
      let sel := select_neighbors cands (if l = 0 then g.M_max0 else g.M)
      let g2 ← connectAt id l g sel
      insertLoop id vector level fuel g2 ls cd2
    else insertLoop id vector level fuel g ls cd2

/-- The `layers[l].add(id)` initialization loop (hnsw.py 103-106) over
`l ∈ range(level + 1)`. -/
def addToLayers (id : String) : List Nat → List (Nat × List String) → List (Nat × List String)
  | [], layers => layers
  | l :: ls, layers =>
    match dictGet? layers l with
    | some s => addToLayers id ls (dictSet layers l (setAdd s id))
    | Option.none => addToLayers id ls (layers ++ [(l, [id])])

/-- `HNSWGraph.insert` (hnsw.py 91-146). `rnd` is the draw returned by
`_get_random_level()` (a random sample, made an explicit input here); the
node's top layer is `min rnd ml_max`. `fuel` bounds the embedded `while`
loops. -/
def hnswInsert (g : HNSWGraph α) (id : String) (vector : List α) (rnd fuel : Nat) :
    Except PyErr (HNSWGraph α) :=
  if (dictGet? g.nodes id).isSome then
    .error (.valueError "Node already exists in the index")
  else
    let level := min rnd g.ml_max
    let g1 : HNSWGraph α :=
      { g with
        nodes := dictSet g.nodes id vector,
        layers := addToLayers id (List.range (level + 1)) g.layers,
        neighbors :=
          dictSet g.neighbors id ((List.range (level + 1)).map (fun l => (l, ([] : List String)))) }
    match g1.entry_point with
    | Option.none => .ok { g1 with entry_point := some id, max_layer := level }
    | some ep => do
      let v0 ← dictItem g1.nodes ep
      let d0 := g1.metric vector v0
      let g2 ← insertLoop id vector level fuel g1 ((List.range (g1.max_layer + 1)).reverse) (ep, d0)
      if g2.max_layer < level then .ok { g2 with max_layer := level, entry_point := some id }
      else .ok g2

/-- The layer-`l` neighbor set of `id` (empty when absent). -/
def neighborsAt (g : HNSWGraph α) (id : String) (l : Nat) : List String :=
  ((dictGet? g.neighbors id).bind (fun ld => dictGet? ld l)).getD []

/-- An id that is a key of `nodes`. -/
def nodeKey (g : HNSWGraph α) (id : String) : Prop := (dictGet? g.nodes id).isSome = true

/-- Well-formedness of a graph state: the entry point (when set) is a node,
every node has a `neighbors` entry, and every recorded neighbor id is a node.
Searches stay inside `nodes` under these conditions. -/
def WFGraph (g : HNSWGraph α) : Prop :=
  (∀ ep ∈ g.entry_point.toList, nodeKey g ep) ∧
  (∀ p ∈ g.nodes, (dictGet? g.neighbors p.1).isSome = true) ∧
  (∀ q ∈ g.neighbors, ∀ r ∈ q.2, ∀ n ∈ r.2, nodeKey g n)

instance (g : HNSWGraph α) (id : String) : Decidable (nodeKey g id) :=
  inferInstanceAs (Decidable ((dictGet? g.nodes id).isSome = true))

instance (g : HNSWGraph α) : Decidable (WFGraph g) :=
  inferInstanceAs (Decidable (_ ∧ _ ∧ _))

/-- Ascending distances, the order `search` promises. -/
def Ascending (l : List (String × α)) : Prop := l.Pairwise (fun a b => a.2 ≤ b.2)

/-- The number of node keys not yet visited; the termination measure of
`_search_layer`'s loop counts it twice (every iteration pops one candidate,
and every push first consumes an unvisited node). -/
def unvisCount (g : HNSWGraph α) (visited : List String) : Nat :=
  ((g.nodes.map Prod.fst).filter (fun x => decide (x ∉ visited))).length

end HNSW

/-! ## Concrete states used by the claim theorems -/

/-- A table written in-session with one record. -/
def t2 : SSTable := (SSTable.init 0 1).write [("a", PyVal.int 1)]

/-- Older level-0 table holding a non-null value for "k". -/
def tOld : SSTable := (SSTable.init 0 1).write [("k", PyVal.int 7)]

/-- Newer level-0 table holding JSON null for "k". -/
def tNull : SSTable := (SSTable.init 0 2).write [("k", PyVal.none)]

/-- Two immutable memtables both holding "k": the first list element is the
older one (flushes append the newest at the end). -/
def s3 : LSMState :=
  { memtable := [],
    immutable_memtables := [[("k", PyVal.int 0)], [("k", PyVal.int 1)]],
    levels := [], max_level := 0 }

/-- Level 0 holding two tables, which exceeds its threshold `4 ^ 0 = 1`. -/
def s4 : LSMState :=
  { memtable := [], immutable_memtables := [],
    levels := [[(SSTable.init 0 1).write [("a", PyVal.int 1)],
                (SSTable.init 0 2).write [("b", PyVal.int 2)]]],
    max_level := 3 }

/-- A state whose newest table for "k" stores JSON null and whose older table
stores 7; the key is in no memtable. -/
def s10 : LSMState :=
  { memtable := [], immutable_memtables := [], levels := [[tOld, tNull]], max_level := 1 }

/-- A store with dimension 10, a freshly created active segment and the
`n_clusters = 8` compressor that `VectorStorage.__init__` builds
(vector_store.py 18). -/
def exStore : VectorStorage :=
  { dimension := 10, active_segment := some segCreate,
    compressor := { dimension := 10, n_subvectors := 2, n_clusters := 8, is_trained := false } }

/-- A vector of the configured length 10. -/
def v10 : List ℤ := [0, 1, 2, 3, 4, 5, 6, 7, 8, 9]

/-- A vector of length 20 against dimension 10, as in the repo's own
`test_invalid_dimension`. -/
def v20 : List ℤ := (List.range 20).map Int.ofNat

/-- Seven training vectors: one fewer than `n_clusters = 8`. -/
def vs7 : List (List ℤ) := List.replicate 7 [0]

/-- Exactly `n_clusters = 8` training vectors. -/
def vs8 : List (List ℤ) := List.replicate 8 [0]

/-- `DistanceMetric('manhattan')` (metrics.py 65-71): `sum(|x - y|)`. Exact
on integer-valued doubles, so a ℤ run reproduces the float run bit for bit. -/
def manhattan (x y : List ℤ) : ℤ := (List.zipWith (fun a b => |a - b|) x y).sum

/-- `HNSWGraph(dim=1, M=1, ef_construction=200, ml_max=16,
metric='manhattan')`: `__init__` computes `M_max0 = 2 * M = 2`. -/
def emptyGraph7 : HNSWGraph ℤ :=
  { dim := 1, M := 1, M_max0 := 2, ef_construction := 200, ml_max := 16,
    metric := manhattan, nodes := [], layers := [], neighbors := [],
    entry_point := Option.none, max_layer := 0 }

/-- Four inserts, `_get_random_level()` drawing 0 each time. All pairwise
distances are distinct and `ef_construction` exceeds the node count, so the
result does not depend on Python's set-iteration order. -/
def graph7 : Except PyErr (HNSWGraph ℤ) := do
  let g ← hnswInsert emptyGraph7 "a" [0] 0 100
  let g ← hnswInsert g "b" [4] 0 100
  let g ← hnswInsert g "c" [-4] 0 100
  hnswInsert g "d" [1] 0 100

/-- A small well-formed two-node graph used to instantiate the search-shape
theorem. -/
def graphW : HNSWGraph ℤ :=
  { dim := 1, M := 16, M_max0 := 32, ef_construction := 200, ml_max := 16,
    metric := manhattan,
    nodes := [("a", [0]), ("b", [4])],
    layers := [(0, ["a", "b"])],
    neighbors := [("a", [(0, ["b"])]), ("b", [(0, ["a"])])],
    entry_point := some "a", max_layer := 0 }

/-! ## Helper lemmas -/

theorem dictGet?_eq_none_of_not_contains {κ β : Type} [DecidableEq κ]
    {d : List (κ × β)} {k : κ} (h : dictContains d k = false) :
    dictGet? d k = Option.none := by
  have h' := List.any_eq_false.mp h
  unfold dictGet?
  rw [List.find?_eq_none.mpr h']
  rfl

theorem dictGet?_isSome_of_contains {κ β : Type} [DecidableEq κ]
    {d : List (κ × β)} {k : κ} (h : dictContains d k = true) :
    (dictGet? d k).isSome = true := by
  obtain ⟨p, hp, hc⟩ := List.any_eq_true.mp h
  have hfind : (d.find? (fun p => decide (p.1 = k))).isSome = true :=
    List.find?_isSome.mpr ⟨p, hp, hc⟩
  obtain ⟨q, hq⟩ := Option.isSome_iff_exists.mp hfind
  unfold dictGet?
  rw [hq]
  rfl

theorem dictGet?_mem {κ β : Type} [DecidableEq κ] {d : List (κ × β)} {k : κ} {v : β}
    (h : dictGet? d k = some v) : (k, v) ∈ d := by
  unfold dictGet? at h
  cases hf : d.find? (fun p => decide (p.1 = k)) with
  | none => rw [hf] at h; simp at h
  | some p =>
    rw [hf] at h
    simp only [Option.map_some'] at h
    have hpk : p.1 = k := by simpa using List.find?_some hf
    have hp : p = (k, v) := by
      cases p
      simp_all
    exact hp ▸ List.mem_of_find?_eq_some hf

theorem dictItem_eq_ok {β : Type} {d : List (String × β)} {k : String} {v : β}
    (h : dictGet? d k = some v) : dictItem d k = .ok v := by
  unfold dictItem
  rw [h]

/-- `probeImms` is the first-containing-table rule of the amended claim. -/
theorem probeImms_eq_find (ims : List (List (String × PyVal))) (k : String) :
    probeImms ims k =
      (ims.find? (fun t => dictContains t k)).map (fun t => (dictGet? t k).getD PyVal.none) := by
  induction ims with
  | nil => rfl
  | cons t ts ih =>
    cases h : dictContains t k with
    | true =>
      have hf : (t :: ts).find? (fun u => dictContains u k) = some t := by
        simp [List.find?_cons, h]
      simp [probeImms, h, hf]
    | false =>
      have hf : (t :: ts).find? (fun u => dictContains u k) =
          ts.find? (fun u => dictContains u k) := by
        simp [List.find?_cons, h]
      simp only [probeImms, h, Bool.false_eq_true, if_false, hf]
      exact ih

/-- A well-formed table's `get` never raises. -/
theorem SSTable.get_isOk {t : SSTable} (hwf : t.WF) (k : String) :
    ∃ v, t.get k = .ok v := by
  cases hidx : dictGet? t.index k with
  | none => exact ⟨PyVal.none, by unfold SSTable.get; rw [hidx]⟩
  | some off =>
    unfold dictGet? at hidx
    cases hf : t.index.find? (fun p => decide (p.1 = k)) with
    | none => rw [hf] at hidx; simp at hidx
    | some p =>
      rw [hf] at hidx
      simp only [Option.map_some'] at hidx
      have hpk : p.1 = k := by simpa using List.find?_some hf
      have hwfp := hwf p (List.mem_of_find?_eq_some hf)
      cases hfile : t.file[p.2]? with
      | none => rw [hfile] at hwfp; simp at hwfp
      | some e =>
        rw [hfile] at hwfp
        simp only [Option.map_some', Option.some_inj] at hwfp
        refine ⟨e.2, ?_⟩
        unfold SSTable.get dictGet?
        rw [hf]
        simp only [Option.map_some', ← hidx, hfile]
        rw [if_pos (hwfp.trans hpk)]

theorem SSTable.get_ok {t : SSTable} (hwf : t.WF) (k : String) :
    t.get k = .ok (tableValue t k) := by
  obtain ⟨v, hv⟩ := SSTable.get_isOk hwf k
  rw [hv]
  unfold tableValue
  rw [hv]

/-- On well-formed tables the source's inner probe computes the spec-side
first-non-null hit. -/
theorem probeTables_eq_sstHit {ts : List SSTable} (hwf : ∀ t ∈ ts, t.WF) (k : String) :
    probeTables ts k = .ok (sstHit ts k) := by
  induction ts with
  | nil => rfl
  | cons t rest ih =>
    have ht := SSTable.get_ok (hwf t (by simp)) k
    have hrest := ih (fun u hu => hwf u (by simp [hu]))
    simp only [probeTables, ht, bind, Except.bind, sstHit]
    cases hv : tableValue t k with
    | none => simpa [hv] using hrest
    | int n => simp [hv]; rfl
    | str m => simp [hv]; rfl

theorem sstHit_append (xs ys : List SSTable) (k : String) :
    sstHit (xs ++ ys) k =
      match sstHit xs k with
      | some v => some v
      | Option.none => sstHit ys k := by
  induction xs with
  | nil => simp [sstHit]
  | cons t rest ih =>
    simp only [List.cons_append, sstHit]
    cases tableValue t k <;> simp [ih]

/-- On well-formed tables the source's level loop computes the spec-side hit
over the flattened sequence. -/
theorem probeLevels_eq_sstHit {L : List (List SSTable)} (hwf : ∀ lvl ∈ L, ∀ t ∈ lvl, t.WF)
    (k : String) :
    probeLevels L k = .ok (sstHit (L.flatMap (fun lvl => lvl.reverse)) k) := by
  induction L with
  | nil => rfl
  | cons lvl rest ih =>
    have h1 : ∀ t ∈ lvl.reverse, t.WF := fun t ht =>
      hwf lvl (by simp) t (List.mem_reverse.mp ht)
    have h2 := ih (fun l hl t ht => hwf l (by simp [hl]) t ht)
    simp only [probeLevels, probeTables_eq_sstHit h1, bind, Except.bind, List.flatMap_cons,
      sstHit_append]
    cases sstHit lvl.reverse k <;> simp [h2, pure, Except.pure]

/-- Well-formedness of the levels reached through the `range`/`getD`
plumbing of `lsmGet`. -/
theorem levels_wf_of_state {s : LSMState} (hwf : ∀ lvl ∈ s.levels, ∀ t ∈ lvl, t.WF) :
    ∀ lvl ∈ (List.range s.max_level).map (fun l => s.levels.getD l []), ∀ t ∈ lvl, t.WF := by
  intro lvl hlvl t ht
  obtain ⟨i, _, hi⟩ := List.mem_map.mp hlvl
  subst hi
  rcases lt_or_le i s.levels.length with hlt | hge
  · rw [List.getD_eq_getElem s.levels [] hlt] at ht
    exact hwf _ (List.getElem_mem hlt) t ht
  · rw [List.getD_eq_default s.levels [] hge] at ht
    simp at ht

/-! ## Claim theorems: LSM tree -/

/-- C2 (code_bug evidence): an SSTable written with `{"a": 1}` serves
`get("a") = 1` in-session, but the table reopened from the same file (as
`_load_existing_tables` constructs it, with an empty index that is never
rebuilt) returns `None` for "a"; and `LSMTree.__init__` itself raises
`AttributeError` because `self.max_level` is never assigned, so reopening a
tree cannot even begin. -/
theorem c2_reopen_loses_index :
    t2.get "a" = .ok (PyVal.int 1) ∧
    (SSTable.reopen 0 1 t2.file).get "a" = .ok PyVal.none ∧
    lsmInit = .error (.attributeError "LSMTree object has no attribute max_level") ∧
    PyVal.int 1 ≠ PyVal.none := by
  refine ⟨by decide, by decide, rfl, by decide⟩

/-- C3 (counterexample): on a state whose immutable-memtable list holds two
tables containing "k" — the first entry the older (flushes append the newest
at the end) — `LSMTree.get` returns the OLDER table's value 0, not the newer
table's value 1 as the claim's newest-first reading asserts. -/
theorem c3_newer_immutable_not_preferred :
    lsmGet s3 "k" = .ok (PyVal.int 0) ∧ lsmGet s3 "k" ≠ .ok (PyVal.int 1) := by
  constructor
  · decide
  · decide

/-- C3 (amended): on every state with well-formed tables, `LSMTree.get`
probes the active memtable first, then the immutable memtables in list order
(oldest first), then the SSTables level by level (`0, ..., max_level - 1`),
newest table first within each level, skipping SSTable values that are JSON
null, and returns the first hit (`None` when there is none) — the first-hit
chain `lsmGetSpec`. -/
theorem c3_probe_order_amended (s : LSMState) (k : String)
    (hwf : ∀ lvl ∈ s.levels, ∀ t ∈ lvl, t.WF) :
    lsmGet s k = .ok (lsmGetSpec s k) := by
  have hlev := probeLevels_eq_sstHit (levels_wf_of_state hwf) k
  unfold lsmGet lsmGetSpec
  rw [probeImms_eq_find]
  cases hc : dictContains s.memtable k with
  | true =>
    obtain ⟨v, hv⟩ := Option.isSome_iff_exists.mp (dictGet?_isSome_of_contains hc)
    simp [hc, hv, pure, Except.pure]
  | false =>
    have hget := dictGet?_eq_none_of_not_contains hc
    cases him : (s.immutable_memtables.find? (fun t => dictContains t k)).map
        (fun t => (dictGet? t k).getD PyVal.none) with
    | some v => simp [hc, hget, him, pure, Except.pure]
    | none =>
      simp only [hc, hget, him, Bool.false_eq_true, if_false, hlev, bind, Except.bind]
      have hseq : ((List.range s.max_level).map (fun l => s.levels.getD l [])).flatMap
          (fun lvl => lvl.reverse) = sstSeq s := rfl
      rw [hseq]
      cases hhit : sstHit (sstSeq s) k <;> simp [hhit, pure, Except.pure]

/-- C3 (witness): the amended probe-order theorem applied at the concrete
two-immutable-memtable state. -/
theorem c3_probe_order_witness : lsmGet s3 "k" = .ok (lsmGetSpec s3 "k") :=
  c3_probe_order_amended s3 "k" (by decide)

/-- C4 (code_bug evidence): with level 0 holding two tables (more than
`4 ^ 0 = 1`), `_maybe_compact_level 0` triggers `_compact_level`, which
raises `AttributeError` at `table.data` instead of merging into a level-1
table. -/
theorem c4_compact_level_raises :
    maybeCompactLevel s4 0 = .error (.attributeError "SSTable object has no attribute data") := by
  decide

/-- C10: when a key is in no memtable, `LSMTree.get` returns the first
non-null hit over the flattened newest-first SSTable sequence — and a table
whose value for the key is JSON null is skipped entirely, so the newest older
value (or `None`) is returned. -/
theorem c10_null_skipped_in_sstables (s : LSMState) (k : String)
    (hwf : ∀ lvl ∈ s.levels, ∀ t ∈ lvl, t.WF)
    (hm : dictContains s.memtable k = false)
    (hi : probeImms s.immutable_memtables k = Option.none) :
    lsmGet s k = .ok ((sstHit (sstSeq s) k).getD PyVal.none) ∧
    ∀ t ts, tableValue t k = PyVal.none → sstHit (t :: ts) k = sstHit ts k := by
  constructor
  · have hlev := probeLevels_eq_sstHit (levels_wf_of_state hwf) k
    unfold lsmGet
    simp only [hm, Bool.false_eq_true, if_false, hi, hlev, bind, Except.bind]
    have hseq : ((List.range s.max_level).map (fun l => s.levels.getD l [])).flatMap
        (fun lvl => lvl.reverse) = sstSeq s := rfl
    rw [hseq]
    cases hhit : sstHit (sstSeq s) k <;> simp [hhit, pure, Except.pure]
  · intro t ts h
    simp [sstHit, h]

/-- C10 (witness): on the concrete state `s10` — newest table stores null for
"k", older stores 7 — `get` returns 7, skipping the stored null. -/
theorem c10_null_skipped_witness : lsmGet s10 "k" = .ok (PyVal.int 7) :=
  (c10_null_skipped_in_sstables s10 "k" (by decide) (by decide) (by decide)).1.trans (by decide)

/-! ## Claim theorems: segment and vector store -/

/-- C8 (counterexample): a freshly created segment has logical size
`HEADER_SIZE = 8`, not 0, and the first append returns offset 8, not 0. -/
theorem c8_first_append_offset_not_zero :
    segCreate._size = 8 ∧ (segCreate.append [1, 2, 3]).2 = 8 ∧ (8 : Nat) ≠ 0 := by
  refine ⟨rfl, rfl, by decide⟩

/-- C8 (amended): `create=True` truncates the file and writes the 8-byte zero
header, so the logical size starts at `HEADER_SIZE = 8` and the first append
on a fresh segment returns offset 8; in general `append` returns the
pre-append logical size. -/
theorem c8_first_append_offset_amended :
    segCreate._size = HEADER_SIZE ∧
    (∀ d : List Nat, (segCreate.append d).2 = HEADER_SIZE) ∧
    (∀ (s : SegmentFile) (d : List Nat), (s.append d).2 = s._size) := by
  exact ⟨rfl, fun _ => rfl, fun _ _ => rfl⟩

/-- C1 (code_bug evidence): `store_vector` with a vector of the configured
length 10 raises `AttributeError` — `SegmentFile` has no `write` method — so
no put ever succeeds and no round trip can happen. -/
theorem c1_store_vector_always_raises :
    store_vector exStore "a" v10 =
      .error (.attributeError "SegmentFile object has no attribute write") ∧
    v10.length = exStore.dimension := by
  exact ⟨rfl, by decide⟩

/-- C6 (code_bug evidence): a vector of length 20 against dimension 10 (the
repo's own `test_invalid_dimension` input) is truncated to its first 10
components by the dimension handling — no `DimensionMismatch`/`ValueError`
is raised; the call then fails with the unrelated missing-`write`
`AttributeError` that every put hits. -/
theorem c6_dimension_mismatch_not_raised :
    dimAdjust exStore.dimension v20 = v20.take 10 ∧
    v20.length ≠ exStore.dimension ∧
    store_vector exStore "invalid" v20 =
      .error (.attributeError "SegmentFile object has no attribute write") := by
  refine ⟨by decide, by decide, rfl⟩

/-- C9: `train_compression` raises `InsufficientTraining` (a `ValueError`)
exactly when fewer than `n_clusters` training vectors are supplied, and
succeeds exactly when at least `n_clusters` are; in particular it succeeds
with exactly `n_clusters` vectors and fails with `n_clusters - 1`. -/
theorem c9_training_threshold (α : Type) (st : VectorStorage) (vs : List (List α)) :
    (train_compression st vs = .error (.valueError insufficientTrainingMsg) ↔
      vs.length < st.compressor.n_clusters) ∧
    ((train_compression st vs).isOk = true ↔ st.compressor.n_clusters ≤ vs.length) := by
  unfold train_compression VectorCompressor.train
  by_cases h : vs.length < st.compressor.n_clusters
  · simp [h, Except.isOk, Except.toBool, Nat.not_le.mpr h]
  · simp [h, Except.isOk, Except.toBool, Nat.le_of_not_lt h]

/-- C9 (witness): with the store's `n_clusters = 8`, training on 7 vectors
raises `InsufficientTraining` and training on exactly 8 succeeds. -/
theorem c9_training_threshold_witness :
    train_compression exStore vs7 = .error (.valueError insufficientTrainingMsg) ∧
    (train_compression exStore vs8).isOk = true :=
  ⟨(c9_training_threshold ℤ exStore vs7).1.mpr (by decide),
   (c9_training_threshold ℤ exStore vs8).2.mpr (by decide)⟩

/-! ## HNSW helper lemmas: sizes and membership of the heap operations, and
the shape of `sortResults` -/

section HNSWLemmas

variable {α : Type} [LinearOrder α] [Inhabited α]

theorem length_siftdown (item : SearchResult α) (s : Nat) :
    ∀ fuel pos heap, (siftdown item s fuel pos heap).length = heap.length := by
  intro fuel
  induction fuel with
  | zero => intro pos heap; simp [siftdown]
  | succ n ih =>
    intro pos heap
    simp only [siftdown]
    split
    · split
      · rw [ih]; simp
      · simp
    · simp

theorem mem_siftdown {item : SearchResult α} {s : Nat} :
    ∀ fuel pos heap, pos < heap.length →
      ∀ x ∈ siftdown item s fuel pos heap, x ∈ heap ∨ x = item := by
  intro fuel
  induction fuel with
  | zero =>
    intro pos heap _ x hx
    exact List.mem_or_eq_of_mem_set hx
  | succ n ih =>
    intro pos heap hpos x hx
    have hpar : (pos - 1) / 2 < heap.length := by
      have := Nat.div_le_self (pos - 1) 2
      omega
    have hparmem : heap.getD ((pos - 1) / 2) default ∈ heap := by
      rw [List.getD_eq_getElem heap default hpar]
      exact List.getElem_mem hpar
    simp only [siftdown] at hx
    by_cases h1 : s < pos
    · rw [if_pos h1] at hx
      by_cases h2 : item.distance < (heap.getD ((pos - 1) / 2) default).distance
      · rw [if_pos h2] at hx
        have hlen : (pos - 1) / 2 < (heap.set pos (heap.getD ((pos - 1) / 2) default)).length := by
          rw [List.length_set]; exact hpar
        rcases ih _ _ hlen x hx with h | h
        · rcases List.mem_or_eq_of_mem_set h with h' | h'
          · exact Or.inl h'
          · exact Or.inl (h' ▸ hparmem)
        · exact Or.inr h
      · rw [if_neg h2] at hx
        exact List.mem_or_eq_of_mem_set hx
    · rw [if_neg h1] at hx
      exact List.mem_or_eq_of_mem_set hx

theorem length_heappush (heap : List (SearchResult α)) (item : SearchResult α) :
    (heappush heap item).length = heap.length + 1 := by
  unfold heappush
  rw [length_siftdown]
  simp

theorem mem_heappush {heap : List (SearchResult α)} {item : SearchResult α} :
    ∀ x ∈ heappush heap item, x ∈ heap ∨ x = item := by
  intro x hx
  unfold heappush at hx
  have hlen : heap.length < (heap ++ [item]).length := by simp
  rcases mem_siftdown _ _ _ hlen x hx with h | h
  · rcases List.mem_append.mp h with h' | h'
    · exact Or.inl h'
    · exact Or.inr (by simpa using h')
  · exact Or.inr h

theorem length_siftupDescend :
    ∀ (fuel pos endpos : Nat) (heap : List (SearchResult α)),
      (siftupDescend fuel pos endpos heap).1.length = heap.length := by
  intro fuel
  induction fuel with
  | zero => intro pos endpos heap; simp [siftupDescend]
  | succ n ih =>
    intro pos endpos heap
    simp only [siftupDescend]
    split
    · rw [ih]; simp
    · simp

theorem pos_siftupDescend :
    ∀ (fuel pos endpos : Nat) (heap : List (SearchResult α)), pos < endpos →
      (siftupDescend fuel pos endpos heap).2 < endpos := by
  intro fuel
  induction fuel with
  | zero => intro pos endpos heap h; simpa [siftupDescend] using h
  | succ n ih =>
    intro pos endpos heap h
    simp only [siftupDescend]
    split
    · apply ih
      unfold suChild
      split <;> omega
    · simpa using h

theorem mem_siftupDescend :
    ∀ (fuel pos endpos : Nat) (heap : List (SearchResult α)), endpos ≤ heap.length →
      ∀ x ∈ (siftupDescend fuel pos endpos heap).1, x ∈ heap := by
  intro fuel
  induction fuel with
  | zero => intro pos endpos heap _ x hx; simpa [siftupDescend] using hx
  | succ n ih =>
    intro pos endpos heap hend x hx
    simp only [siftupDescend] at hx
    by_cases h1 : 2 * pos + 1 < endpos
    · rw [if_pos h1] at hx
      have hch : suChild pos endpos heap < endpos := by
        unfold suChild; split <;> omega
      have hchlen : suChild pos endpos heap < heap.length := lt_of_lt_of_le hch hend
      have hchmem : heap.getD (suChild pos endpos heap) default ∈ heap := by
        rw [List.getD_eq_getElem heap default hchlen]
        exact List.getElem_mem hchlen
      have hlen : endpos ≤ (heap.set pos (heap.getD (suChild pos endpos heap) default)).length := by
        rw [List.length_set]; exact hend
      rcases List.mem_or_eq_of_mem_set (ih _ _ _ hlen x hx) with h | h
      · exact h
      · exact h ▸ hchmem
    · rw [if_neg h1] at hx
      exact hx

theorem length_siftup (pos : Nat) (heap : List (SearchResult α)) :
    (siftup pos heap).length = heap.length := by
  unfold siftup
  rw [length_siftdown, List.length_set, length_siftupDescend]

theorem mem_siftup {pos : Nat} {heap : List (SearchResult α)} (hpos : pos < heap.length) :
    ∀ x ∈ siftup pos heap, x ∈ heap := by
  intro x hx
  unfold siftup at hx
  have hd2 : (siftupDescend heap.length pos heap.length heap).2 < heap.length :=
    pos_siftupDescend _ _ _ _ hpos
  have hlen : (siftupDescend heap.length pos heap.length heap).2 <
      ((siftupDescend heap.length pos heap.length heap).1.set
        (siftupDescend heap.length pos heap.length heap).2 (heap.getD pos default)).length := by
    rw [List.length_set, length_siftupDescend]
    exact hd2
  have hposmem : heap.getD pos default ∈ heap := by
    rw [List.getD_eq_getElem heap default hpos]
    exact List.getElem_mem hpos
  rcases mem_siftdown _ _ _ hlen x hx with h | h
  · rcases List.mem_or_eq_of_mem_set h with h' | h'
    · exact mem_siftupDescend _ _ _ _ le_rfl x h'
    · exact h' ▸ hposmem
  · exact h ▸ hposmem

theorem heappop_spec {heap rest : List (SearchResult α)} {r : SearchResult α}
    (h : heappop heap = some (r, rest)) :
    r ∈ heap ∧ rest.length + 1 = heap.length ∧ ∀ x ∈ rest, x ∈ heap := by
  cases heap with
  | nil => simp [heappop] at h
  | cons a t =>
    have hlastlt : (a :: t).length - 1 < (a :: t).length := by simp
    have hlast : (a :: t).getD ((a :: t).length - 1) default ∈ a :: t := by
      rw [List.getD_eq_getElem _ default hlastlt]
      exact List.getElem_mem hlastlt
    have hdl : ∀ y ∈ (a :: t).dropLast, y ∈ a :: t :=
      fun y hy => (List.dropLast_sublist (a :: t)).mem hy
    unfold heappop at h
    by_cases h0 : (a :: t).dropLast.length = 0
    · rw [if_pos h0] at h
      injection h with hp
      injection hp with h1 h2
      subst h1
      subst h2
      have ht0 : t.length = 0 := by simpa using h0
      exact ⟨hlast, by simp [ht0], by simp⟩
    · rw [if_neg h0] at h
      injection h with hp
      injection hp with h1 h2
      subst h1
      subst h2
      have hset0 : (0 : Nat) <
          ((a :: t).dropLast.set 0 ((a :: t).getD ((a :: t).length - 1) default)).length := by
        rw [List.length_set]
        omega
      have h0lt : (0 : Nat) < (a :: t).dropLast.length := by omega
      refine ⟨?_, ?_, ?_⟩
      · refine hdl _ ?_
        rw [List.getD_eq_getElem _ default h0lt]
        exact List.getElem_mem h0lt
      · rw [length_siftup, List.length_set]
        simp
      · intro x hx
        rcases List.mem_or_eq_of_mem_set (mem_siftup hset0 x hx) with h' | h'
        · exact hdl _ h'
        · exact h' ▸ hlast

theorem length_insertAsc (x : SearchResult α) :
    ∀ l : List (SearchResult α), (insertAsc x l).length = l.length + 1 := by
  intro l
  induction l with
  | nil => rfl
  | cons y ys ih =>
    unfold insertAsc
    split
    · simp
    · simp [ih]

theorem mem_insertAsc {x : SearchResult α} :
    ∀ {l : List (SearchResult α)} {y}, y ∈ insertAsc x l ↔ y = x ∨ y ∈ l := by
  intro l
  induction l with
  | nil => intro y; simp [insertAsc]
  | cons z zs ih =>
    intro y
    unfold insertAsc
    split
    · simp [or_comm, or_assoc, or_left_comm]
    · simp only [List.mem_cons, ih]
      tauto

theorem sorted_insertAsc {x : SearchResult α} {l : List (SearchResult α)}
    (h : l.Pairwise (fun a b => a.distance ≤ b.distance)) :
    (insertAsc x l).Pairwise (fun a b => a.distance ≤ b.distance) := by
  induction l with
  | nil => simp [insertAsc]
  | cons y ys ih =>
    rw [List.pairwise_cons] at h
    unfold insertAsc
    split
    · rename_i hle
      rw [List.pairwise_cons]
      refine ⟨?_, List.pairwise_cons.mpr h⟩
      intro b hb
      rcases List.mem_cons.mp hb with rfl | hb'
      · exact hle
      · exact le_trans hle (h.1 b hb')
    · rename_i hgt
      rw [List.pairwise_cons]
      refine ⟨?_, ih h.2⟩
      intro b hb
      rcases mem_insertAsc.mp hb with rfl | hb'
      · exact le_of_lt (lt_of_not_le hgt)
      · exact h.1 b hb'

theorem sorted_sortResults :
    ∀ l : List (SearchResult α), (sortResults l).Pairwise (fun a b => a.distance ≤ b.distance) := by
  intro l
  induction l with
  | nil => simp [sortResults]
  | cons x xs ih => exact sorted_insertAsc ih

theorem mem_sortResults :
    ∀ {l : List (SearchResult α)} {y}, y ∈ sortResults l ↔ y ∈ l := by
  intro l
  induction l with
  | nil => intro y; rfl
  | cons x xs ih =>
    intro y
    unfold sortResults
    rw [mem_insertAsc, ih]
    simp

theorem length_sortResults :
    ∀ l : List (SearchResult α), (sortResults l).length = l.length := by
  intro l
  induction l with
  | nil => rfl
  | cons x xs ih =>
    unfold sortResults
    rw [length_insertAsc, ih]
    rfl

theorem length_resultsPushPop (ef : Nat) (res : List (SearchResult α)) :
    res.length - 1 ≤ (resultsPushPop ef res).length ∧
      (resultsPushPop ef res).length ≤ res.length := by
  unfold resultsPushPop
  split
  · cases hp : heappop res with
    | none => simp
    | some pr =>
      have := (heappop_spec (show heappop res = some (pr.1, pr.2) by rw [hp])).2.1
      simp only []
      omega
  · simp

theorem mem_resultsPushPop {ef : Nat} {res : List (SearchResult α)} :
    ∀ x ∈ resultsPushPop ef res, x ∈ res := by
  intro x hx
  unfold resultsPushPop at hx
  split at hx
  · cases hp : heappop res with
    | none => rw [hp] at hx; exact hx
    | some pr =>
      rw [hp] at hx
      exact (heappop_spec (show heappop res = some (pr.1, pr.2) by rw [hp])).2.2 x hx
  · exact hx

theorem nodeKey_mem_keys {g : HNSWGraph α} {n : String} (h : nodeKey g n) :
    n ∈ g.nodes.map Prod.fst := by
  obtain ⟨v, hv⟩ := Option.isSome_iff_exists.mp h
  exact List.mem_map_of_mem Prod.fst (dictGet?_mem hv)

theorem filter_length_le_of_imp {l : List String} {p q : String → Bool}
    (h : ∀ x, q x = true → p x = true) :
    (l.filter q).length ≤ (l.filter p).length := by
  induction l with
  | nil => simp
  | cons a t ih =>
    rw [List.filter_cons, List.filter_cons]
    cases hq : q a with
    | true => rw [h a hq]; simpa using ih
    | false => cases p a <;> simp <;> omega

theorem filter_cons_notMem_length {l vis : List String} {n : String}
    (hmem : n ∈ l) (hnv : n ∉ vis) :
    (l.filter (fun x => decide (x ∉ n :: vis))).length + 1 ≤
      (l.filter (fun x => decide (x ∉ vis))).length := by
  have himp : ∀ x : String, decide (x ∉ n :: vis) = true → decide (x ∉ vis) = true := by
    intro x hx
    simp only [decide_eq_true_eq] at *
    intro hv
    exact hx (List.mem_cons_of_mem _ hv)
  induction l with
  | nil => simp at hmem
  | cons a t ih =>
    rw [List.filter_cons, List.filter_cons]
    by_cases han : a = n
    · subst han
      have h1 : decide (a ∉ a :: vis) = false := by simp
      have h2 : decide (a ∉ vis) = true := by simpa using hnv
      rw [h1, h2]
      have := @filter_length_le_of_imp t _ _ himp
      simp only [Bool.false_eq_true, eq_self_iff_true, if_false, if_true, List.length_cons]
      omega
    · by_cases hav : a ∈ vis
      · have h1 : decide (a ∉ n :: vis) = false := by simp [hav]
        have h2 : decide (a ∉ vis) = false := by simp [hav]
        rw [h1, h2]
        simp only [if_false, Bool.false_eq_true]
        exact ih (by rcases List.mem_cons.mp hmem with h | h; exact absurd h.symm han; exact h)
      · have h1 : decide (a ∉ n :: vis) = true := by simp [hav, han]
        have h2 : decide (a ∉ vis) = true := by simp [hav]
        rw [h1, h2]
        have := ih (by rcases List.mem_cons.mp hmem with h | h; exact absurd h.symm han; exact h)
        simp only [Bool.false_eq_true, eq_self_iff_true, if_false, if_true, List.length_cons]
        omega

theorem unvisCount_cons_lt {g : HNSWGraph α} {visited : List String} {n : String}
    (hn : nodeKey g n) (hnv : n ∉ visited) :
    unvisCount g (n :: visited) + 1 ≤ unvisCount g visited :=
  filter_cons_notMem_length (nodeKey_mem_keys hn) hnv

theorem unvisCount_cons_le (g : HNSWGraph α) (visited : List String) (n : String) :
    unvisCount g (n :: visited) ≤ unvisCount g visited := by
  apply filter_length_le_of_imp
  intro x hx
  simp only [decide_eq_true_eq] at *
  intro hv
  exact hx (List.mem_cons_of_mem _ hv)

theorem unvisCount_le_nodes (g : HNSWGraph α) (visited : List String) :
    unvisCount g visited ≤ g.nodes.length := by
  unfold unvisCount
  calc ((g.nodes.map Prod.fst).filter (fun x => decide (x ∉ visited))).length
      ≤ (g.nodes.map Prod.fst).length := List.length_filter_le _ _
    _ = g.nodes.length := List.length_map _ _

/-- `processNeighbors` succeeds when every neighbor is a node, keeps
candidate and result ids inside `nodes`, never shrinks the result set below
its starting size, and does not increase the loop measure
`|candidates| + 2 · |unvisited node keys|`. -/
theorem processNeighbors_spec (g : HNSWGraph α) (query : List α) (ef : Nat)
    (furthest : Option α) :
    ∀ (nbrs : List String) (st : SLState α),
      (∀ n ∈ nbrs, nodeKey g n) →
      (∀ r ∈ st.candidates, nodeKey g r.id) →
      (∀ r ∈ st.results, nodeKey g r.id) →
      ∃ st2, processNeighbors g query ef furthest nbrs st = .ok st2 ∧
        (∀ r ∈ st2.candidates, nodeKey g r.id) ∧
        (∀ r ∈ st2.results, nodeKey g r.id) ∧
        st.results.length ≤ st2.results.length ∧
        st2.candidates.length + 2 * unvisCount g st2.visited ≤
          st.candidates.length + 2 * unvisCount g st.visited := by
  intro nbrs
  induction nbrs with
  | nil =>
    intro st _ hc hr
    exact ⟨st, rfl, hc, hr, le_rfl, le_rfl⟩
  | cons n ns ih =>
    intro st hn hc hr
    have hns : ∀ m ∈ ns, nodeKey g m := fun m hm => hn m (List.mem_cons_of_mem _ hm)
    by_cases hvis : n ∈ st.visited
    · simp only [processNeighbors]
      rw [if_pos hvis]
      exact ih st hns hc hr
    · have hnk : nodeKey g n := hn n (List.mem_cons_self _ _)
      obtain ⟨vn, hvn⟩ := Option.isSome_iff_exists.mp hnk
      simp only [processNeighbors]
      rw [if_neg hvis, dictItem_eq_ok hvn]
      simp only [bind, Except.bind]
      by_cases hcond :
          (decide (st.results.length < ef) || ltOptInf (g.metric query vn) furthest) = true
      · rw [if_pos hcond]
        set nr : SearchResult α := ⟨n, g.metric query vn⟩ with hnr
        set st1 : SLState α :=
          ⟨n :: st.visited, heappush st.candidates nr,
            resultsPushPop ef (heappush st.results nr)⟩ with hst1
        have hc1 : ∀ r ∈ st1.candidates, nodeKey g r.id := by
          intro r hrm
          rcases mem_heappush r hrm with h | h
          · exact hc r h
          · rw [h, hnr]; exact hnk
        have hr1 : ∀ r ∈ st1.results, nodeKey g r.id := by
          intro r hrm
          rcases mem_heappush r (mem_resultsPushPop r hrm) with h | h
          · exact hr r h
          · rw [h, hnr]; exact hnk
        obtain ⟨st2, heq, hc2, hr2, hlen2, hmeas2⟩ := ih st1 hns hc1 hr1
        refine ⟨st2, heq, hc2, hr2, ?_, ?_⟩
        · have h1 := (length_resultsPushPop ef (heappush st.results nr)).1
          rw [length_heappush] at h1
          have : st.results.length ≤ st1.results.length := by
            simpa [hst1] using h1
          exact le_trans this hlen2
        · have hm1 : st1.candidates.length = st.candidates.length + 1 := by
            simp [hst1, length_heappush]
          have hm2 : unvisCount g st1.visited + 1 ≤ unvisCount g st.visited := by
            simpa [hst1] using unvisCount_cons_lt hnk hvis
          have hm3 : unvisCount g (n :: st.visited) = unvisCount g st1.visited := by
            simp [hst1]
          omega
      · rw [if_neg hcond]
        set st1 : SLState α := ⟨n :: st.visited, st.candidates, st.results⟩ with hst1
        obtain ⟨st2, heq, hc2, hr2, hlen2, hmeas2⟩ := ih st1 hns hc hr
        refine ⟨st2, heq, hc2, hr2, hlen2, ?_⟩
        have hm2 : unvisCount g st1.visited ≤ unvisCount g st.visited := by
          simpa [hst1] using unvisCount_cons_le g st.visited n
        have hm1 : st1.candidates.length = st.candidates.length := by simp [hst1]
        omega

theorem furthestDist_ok (ef : Nat) {results : List (SearchResult α)}
    (h : 1 ≤ results.length) : ∃ f, furthestDist ef results = .ok f := by
  unfold furthestDist
  by_cases hle : ef ≤ results.length
  · rw [if_pos hle]
    cases hgl : results.getLast? with
    | some r => exact ⟨some r.distance, rfl⟩
    | none =>
      rw [List.getLast?_eq_none_iff] at hgl
      rw [hgl] at h
      simp at h
  · rw [if_neg hle]
    exact ⟨Option.none, rfl⟩

/-- The search loop succeeds — returning a nonempty result list of node ids —
whenever the graph's neighbor structure is closed over `nodes`, `ef ≥ 1`, and
the fuel exceeds the loop measure. -/
theorem searchLoop_spec (g : HNSWGraph α) (query : List α) (ef layer : Nat)
    (hnb : ∀ p ∈ g.nodes, (dictGet? g.neighbors p.1).isSome = true)
    (hcl : ∀ q ∈ g.neighbors, ∀ r ∈ q.2, ∀ m ∈ r.2, nodeKey g m)
    (hef : 1 ≤ ef) :
    ∀ (fuel : Nat) (st : SLState α),
      (∀ r ∈ st.candidates, nodeKey g r.id) →
      (∀ r ∈ st.results, nodeKey g r.id) →
      1 ≤ st.results.length →
      st.candidates.length + 2 * unvisCount g st.visited < fuel →
      ∃ out, searchLoop g query ef layer fuel st = .ok out ∧ 1 ≤ out.length ∧
        ∀ r ∈ out, nodeKey g r.id := by
  intro fuel
  induction fuel with
  | zero => intro st _ _ _ hm; omega
  | succ fu ih =>
    intro st hc hr hrlen hm
    simp only [searchLoop]
    cases hpop : heappop st.candidates with
    | none => exact ⟨st.results, rfl, hrlen, hr⟩
    | some pr =>
      obtain ⟨current, cands⟩ := pr
      have hps := heappop_spec hpop
      have hcur : nodeKey g current.id := hc current hps.1
      have hcands : ∀ r ∈ cands, nodeKey g r.id := fun r hrm => hc r (hps.2.2 r hrm)
      obtain ⟨f, hf⟩ := furthestDist_ok ef hrlen
      rw [hf]
      simp only [bind, Except.bind]
      by_cases hbrk : gtOptInf current.distance f = true
      · rw [if_pos hbrk]
        exact ⟨st.results, rfl, hrlen, hr⟩
      · rw [if_neg hbrk]
        obtain ⟨v, hv⟩ := Option.isSome_iff_exists.mp hcur
        obtain ⟨ld, hld⟩ := Option.isSome_iff_exists.mp (hnb _ (dictGet?_mem hv))
        rw [dictItem_eq_ok hld]
        simp only [bind, Except.bind]
        have hnbrs : ∀ m ∈ (dictGet? ld layer).getD [], nodeKey g m := by
          cases hns : dictGet? ld layer with
          | none => intro m hm2; simp at hm2
          | some ns =>
            intro m hm2
            exact hcl _ (dictGet?_mem hld) _ (dictGet?_mem hns) m (by simpa using hm2)
        obtain ⟨st2, heq, hc2, hr2, hlen2, hmeas2⟩ :=
          processNeighbors_spec g query ef f ((dictGet? ld layer).getD [])
            ⟨st.visited, cands, st.results⟩ hnbrs hcands hr
        rw [heq]
        have hlen2' : st.results.length ≤ st2.results.length := hlen2
        have hmeas2' : st2.candidates.length + 2 * unvisCount g st2.visited ≤
            cands.length + 2 * unvisCount g st.visited := hmeas2
        have hclen : cands.length + 1 = st.candidates.length := hps.2.1
        exact ih st2 hc2 hr2 (le_trans hrlen hlen2') (by omega)

/-- `_search_layer` succeeds on a well-formed graph when the entry is a node,
`ef ≥ 1` and the fuel is at least `2 + 2 · |nodes|`, returning a nonempty
ascending list of node-id results. -/
theorem searchLayer_spec (g : HNSWGraph α) (query : List α) (entry : String)
    (ef layer fuel : Nat)
    (hnb : ∀ p ∈ g.nodes, (dictGet? g.neighbors p.1).isSome = true)
    (hcl : ∀ q ∈ g.neighbors, ∀ r ∈ q.2, ∀ m ∈ r.2, nodeKey g m)
    (hef : 1 ≤ ef) (hentry : nodeKey g entry)
    (hfuel : 2 + 2 * g.nodes.length ≤ fuel) :
    ∃ rs, searchLayer g query entry ef layer fuel = .ok rs ∧ 1 ≤ rs.length ∧
      (∀ r ∈ rs, nodeKey g r.id) ∧
      rs.Pairwise (fun a b => a.distance ≤ b.distance) := by
  obtain ⟨ve, hve⟩ := Option.isSome_iff_exists.mp hentry
  have hmemer : ∀ x ∈ heappush ([] : List (SearchResult α)) ⟨entry, g.metric query ve⟩,
      nodeKey g x.id := by
    intro x hx
    rcases mem_heappush x hx with h | h
    · simp at h
    · rw [h]; exact hentry
  have hlen1 : (heappush ([] : List (SearchResult α)) ⟨entry, g.metric query ve⟩).length = 1 :=
    length_heappush [] _
  have hmeas : (heappush ([] : List (SearchResult α)) ⟨entry, g.metric query ve⟩).length +
      2 * unvisCount g [entry] < fuel := by
    have := unvisCount_le_nodes g [entry]
    omega
  obtain ⟨out, hout, houtlen, houtmem⟩ := searchLoop_spec g query ef layer hnb hcl hef fuel
    ⟨[entry], heappush [] ⟨entry, g.metric query ve⟩, heappush [] ⟨entry, g.metric query ve⟩⟩
    hmemer hmemer (by rw [hlen1]) hmeas
  refine ⟨sortResults out, ?_, ?_, ?_, sorted_sortResults out⟩
  · unfold searchLayer
    rw [dictItem_eq_ok hve]
    simp only [bind, Except.bind, hout]
    rfl
  · rw [length_sortResults]
    exact houtlen
  · intro r hrm
    exact houtmem r (mem_sortResults.mp hrm)

/-- The top-layers greedy descent of `search` succeeds and lands on a node. -/
theorem searchDescend_spec (g : HNSWGraph α) (query : List α) (fuel : Nat)
    (hnb : ∀ p ∈ g.nodes, (dictGet? g.neighbors p.1).isSome = true)
    (hcl : ∀ q ∈ g.neighbors, ∀ r ∈ q.2, ∀ m ∈ r.2, nodeKey g m)
    (hfuel : 2 + 2 * g.nodes.length ≤ fuel) :
    ∀ (ls : List Nat) (curr : String), nodeKey g curr →
      ∃ c2, searchDescend g query fuel ls curr = .ok c2 ∧ nodeKey g c2 := by
  intro ls
  induction ls with
  | nil => intro curr hcurr; exact ⟨curr, rfl, hcurr⟩
  | cons l ls2 ih =>
    intro curr hcurr
    obtain ⟨rs, hrs, hrslen, hrsmem, _⟩ :=
      searchLayer_spec g query curr 1 l fuel hnb hcl le_rfl hcurr hfuel
    cases rs with
    | nil => simp at hrslen
    | cons r rest =>
      obtain ⟨c2, hc2, hc2k⟩ := ih r.id (hrsmem r (List.mem_cons_self _ _))
      refine ⟨c2, ?_, hc2k⟩
      simp only [searchDescend, hrs, bind, Except.bind]
      exact hc2

end HNSWLemmas

/-! ## HNSW well-formedness preservation: a successful `insert` keeps the
graph well-formed, so `WFGraph` covers every index built through the public
interface (and the hypothesis of the C5 theorem is not vacuous). -/

theorem dictContains_of_isSome {κ β : Type} [DecidableEq κ] {d : List (κ × β)} {k : κ}
    (h : (dictGet? d k).isSome = true) : dictContains d k = true := by
  obtain ⟨v, hv⟩ := Option.isSome_iff_exists.mp h
  unfold dictContains
  rw [List.any_eq_true]
  exact ⟨(k, v), dictGet?_mem hv, by simp⟩

theorem dictContains_dictSet_self {κ β : Type} [DecidableEq κ] (d : List (κ × β)) (k : κ)
    (v : β) : dictContains (dictSet d k v) k = true := by
  unfold dictSet
  split
  · rename_i h
    obtain ⟨p, hp, hpk⟩ := List.any_eq_true.mp h
    unfold dictContains
    rw [List.any_eq_true]
    refine ⟨(k, v), List.mem_map.mpr ⟨p, hp, ?_⟩, by simp⟩
    rw [if_pos (by simpa using hpk)]
  · unfold dictContains
    rw [List.any_eq_true]
    exact ⟨(k, v), by simp, by simp⟩

theorem dictContains_dictSet_of {κ β : Type} [DecidableEq κ] {d : List (κ × β)} {k2 : κ}
    (k : κ) (v : β) (h : dictContains d k2 = true) :
    dictContains (dictSet d k v) k2 = true := by
  obtain ⟨p, hp, hpk⟩ := List.any_eq_true.mp h
  unfold dictSet
  split
  · unfold dictContains
    rw [List.any_eq_true]
    by_cases hk : p.1 = k
    · refine ⟨(k, v), List.mem_map.mpr ⟨p, hp, by rw [if_pos hk]⟩, ?_⟩
      simp only [decide_eq_true_eq]
      rw [← hk]
      simpa using hpk
    · exact ⟨p, List.mem_map.mpr ⟨p, hp, by rw [if_neg hk]⟩, hpk⟩
  · unfold dictContains
    rw [List.any_eq_true]
    exact ⟨p, List.mem_append_left _ hp, hpk⟩

theorem isSome_dictSet_self {κ β : Type} [DecidableEq κ] (d : List (κ × β)) (k : κ) (v : β) :
    (dictGet? (dictSet d k v) k).isSome = true :=
  dictGet?_isSome_of_contains (dictContains_dictSet_self d k v)

theorem isSome_dictSet_of {κ β : Type} [DecidableEq κ] {d : List (κ × β)} {k2 : κ}
    (k : κ) (v : β) (h : (dictGet? d k2).isSome = true) :
    (dictGet? (dictSet d k v) k2).isSome = true :=
  dictGet?_isSome_of_contains (dictContains_dictSet_of k v (dictContains_of_isSome h))

theorem mem_dictSet {κ β : Type} [DecidableEq κ] {d : List (κ × β)} {k : κ} {v : β} :
    ∀ q ∈ dictSet d k v, q ∈ d ∨ q = (k, v) := by
  intro q hq
  unfold dictSet at hq
  split at hq
  · obtain ⟨p, hp, hpe⟩ := List.mem_map.mp hq
    by_cases h : p.1 = k
    · rw [if_pos h] at hpe
      exact Or.inr hpe.symm
    · rw [if_neg h] at hpe
      exact Or.inl (hpe ▸ hp)
  · rcases List.mem_append.mp hq with h | h
    · exact Or.inl h
    · exact Or.inr (by simpa using h)

theorem dictGet?_of_dictItem_ok {β : Type} {d : List (String × β)} {k : String} {v : β}
    (h : dictItem d k = .ok v) : dictGet? d k = some v := by
  unfold dictItem at h
  cases hg : dictGet? d k with
  | none => rw [hg] at h; simp at h
  | some w => rw [hg] at h; injection h with h2; rw [h2]

theorem dictGet?_of_dictItemNat_ok {β : Type} {d : List (Nat × β)} {k : Nat} {v : β}
    (h : dictItemNat d k = .ok v) : dictGet? d k = some v := by
  unfold dictItemNat at h
  cases hg : dictGet? d k with
  | none => rw [hg] at h; simp at h
  | some w => rw [hg] at h; injection h with h2; rw [h2]

theorem mem_setAdd {s : List String} {x : String} : ∀ n ∈ setAdd s x, n ∈ s ∨ n = x := by
  intro n hn
  unfold setAdd at hn
  split at hn
  · exact Or.inl hn
  · rcases List.mem_append.mp hn with h | h
    · exact Or.inl h
    · exact Or.inr (by simpa using h)

section HNSWPreservation

variable {α : Type} [LinearOrder α] [Inhabited α]

/-- Adding one id to one neighbor set keeps the graph well-formed, provided
the added id is a node. -/
theorem WFGraph_setAdd {g : HNSWGraph α} {key0 : String} {ld : List (Nat × List String)}
    {l : Nat} {s : List String} {x : String}
    (hwf : WFGraph g) (hx : nodeKey g x)
    (hld : dictGet? g.neighbors key0 = some ld) (hs : dictGet? ld l = some s) :
    WFGraph { g with neighbors := dictSet g.neighbors key0 (dictSet ld l (setAdd s x)) } := by
  obtain ⟨hentry, hnb, hcl⟩ := hwf
  refine ⟨hentry, ?_, ?_⟩
  · intro p hp
    exact isSome_dictSet_of _ _ (hnb p hp)
  · intro q hq r hr n hn
    rcases mem_dictSet q hq with h | h
    · exact hcl q h r hr n hn
    · subst h
      rcases mem_dictSet r hr with h2 | h2
      · exact hcl _ (dictGet?_mem hld) r h2 n hn
      · subst h2
        rcases mem_setAdd n hn with h3 | h3
        · exact hcl _ (dictGet?_mem hld) _ (dictGet?_mem hs) n h3
        · exact h3 ▸ hx

/-- A successful `processNeighbors` only ever puts node ids into the result
heap (each push is guarded by a successful `self.nodes[...]` lookup). -/
theorem processNeighbors_results_keys (g : HNSWGraph α) (query : List α) (ef : Nat)
    (furthest : Option α) :
    ∀ (nbrs : List String) (st st2 : SLState α),
      processNeighbors g query ef furthest nbrs st = .ok st2 →
      (∀ r ∈ st.results, nodeKey g r.id) →
      ∀ r ∈ st2.results, nodeKey g r.id := by
  intro nbrs
  induction nbrs with
  | nil =>
    intro st st2 heq hr
    injection heq with h
    exact h ▸ hr
  | cons n ns ih =>
    intro st st2 heq hr
    simp only [processNeighbors] at heq
    by_cases hvis : n ∈ st.visited
    · rw [if_pos hvis] at heq
      exact ih st st2 heq hr
    · rw [if_neg hvis] at heq
      cases hitem : dictItem g.nodes n with
      | error e => rw [hitem] at heq; simp [bind, Except.bind] at heq
      | ok vn =>
        rw [hitem] at heq
        simp only [bind, Except.bind] at heq
        have hnk : nodeKey g n := by
          unfold nodeKey
          rw [dictGet?_of_dictItem_ok hitem]
          rfl
        by_cases hcond :
            (decide (st.results.length < ef) || ltOptInf (g.metric query vn) furthest) = true
        · rw [if_pos hcond] at heq
          refine ih _ st2 heq ?_
          intro r hrm
          rcases mem_heappush r (mem_resultsPushPop r hrm) with h | h
          · exact hr r h
          · rw [h]; exact hnk
        · rw [if_neg hcond] at heq
          exact ih _ st2 heq hr

/-- A successful search loop returns only node ids. -/
theorem searchLoop_results_keys (g : HNSWGraph α) (query : List α) (ef layer : Nat) :
    ∀ (fuel : Nat) (st : SLState α) (out : List (SearchResult α)),
      searchLoop g query ef layer fuel st = .ok out →
      (∀ r ∈ st.results, nodeKey g r.id) →
      ∀ r ∈ out, nodeKey g r.id := by
  intro fuel
  induction fuel with
  | zero => intro st out heq _; simp [searchLoop] at heq
  | succ fu ih =>
    intro st out heq hr
    simp only [searchLoop] at heq
    cases hpop : heappop st.candidates with
    | none =>
      rw [hpop] at heq
      injection heq with h
      exact h ▸ hr
    | some pr =>
      rw [hpop] at heq
      obtain ⟨current, cands⟩ := pr
      cases hfd : furthestDist ef st.results with
      | error e => rw [hfd] at heq; simp [bind, Except.bind] at heq
      | ok f =>
        rw [hfd] at heq
        simp only [bind, Except.bind] at heq
        by_cases hbrk : gtOptInf current.distance f = true
        · rw [if_pos hbrk] at heq
          injection heq with h
          exact h ▸ hr
        · rw [if_neg hbrk] at heq
          cases hitem : dictItem g.neighbors current.id with
          | error e => rw [hitem] at heq; simp [bind, Except.bind] at heq
          | ok ld =>
            rw [hitem] at heq
            simp only [bind, Except.bind] at heq
            cases hpn : processNeighbors g query ef f ((dictGet? ld layer).getD [])
                ⟨st.visited, cands, st.results⟩ with
            | error e => rw [hpn] at heq; simp at heq
            | ok st2 =>
              rw [hpn] at heq
              exact ih st2 out heq
                (processNeighbors_results_keys g query ef f _ _ st2 hpn hr)

/-- A successful `_search_layer` returns only node ids. -/
theorem searchLayer_results_keys {g : HNSWGraph α} {query : List α} {entry : String}
    {ef layer fuel : Nat} {rs : List (SearchResult α)}
    (h : searchLayer g query entry ef layer fuel = .ok rs) :
    ∀ r ∈ rs, nodeKey g r.id := by
  unfold searchLayer at h
  cases hitem : dictItem g.nodes entry with
  | error e => rw [hitem] at h; simp [bind, Except.bind] at h
  | ok ve =>
    rw [hitem] at h
    simp only [bind, Except.bind] at h
    have hek : nodeKey g entry := by
      unfold nodeKey
      rw [dictGet?_of_dictItem_ok hitem]
      rfl
    cases hloop : searchLoop g query ef layer fuel
        ⟨[entry], heappush [] ⟨entry, g.metric query ve⟩,
          heappush [] ⟨entry, g.metric query ve⟩⟩ with
    | error e => rw [hloop] at h; simp at h
    | ok out =>
      rw [hloop] at h
      injection h with h2
      intro r hrm
      have hinit : ∀ r ∈ heappush ([] : List (SearchResult α)) ⟨entry, g.metric query ve⟩,
          nodeKey g r.id := by
        intro x hx
        rcases mem_heappush x hx with h3 | h3
        · simp at h3
        · rw [h3]; exact hek
      exact searchLoop_results_keys g query ef layer fuel _ out hloop hinit r
        (mem_sortResults.mp (h2 ▸ hrm))

/-- The ids selected by `_select_neighbors` come from the candidate list. -/
theorem mem_select_neighbors {candidates : List (SearchResult α)} {M : Nat} {m : String}
    (h : m ∈ select_neighbors candidates M) : ∃ r ∈ candidates, r.id = m := by
  unfold select_neighbors at h
  obtain ⟨r, hr, hre⟩ := List.mem_map.mp h
  exact ⟨r, mem_sortResults.mp ((List.take_sublist _ _).mem hr), hre⟩

/-- `connectAt` only rewires neighbor sets: on success the graph stays
well-formed and every other field is untouched. -/
theorem connectAt_pres {id : String} {l : Nat} :
    ∀ (sel : List String) (g g2 : HNSWGraph α),
      connectAt id l g sel = .ok g2 →
      WFGraph g → nodeKey g id → (∀ nb ∈ sel, nodeKey g nb) →
      WFGraph g2 ∧ g2.nodes = g.nodes ∧ g2.entry_point = g.entry_point ∧
        g2.max_layer = g.max_layer ∧ g2.ef_construction = g.ef_construction ∧
        g2.M = g.M ∧ g2.M_max0 = g.M_max0 ∧ g2.ml_max = g.ml_max := by
  intro sel
  induction sel with
  | nil =>
    intro g g2 heq hwf _ _
    injection heq with h
    subst h
    exact ⟨hwf, rfl, rfl, rfl, rfl, rfl, rfl, rfl⟩
  | cons nb rest ih =>
    intro g g2 heq hwf hid hsel
    simp only [connectAt] at heq
    cases h1 : dictItem g.neighbors id with
    | error e => rw [h1] at heq; simp [bind, Except.bind] at heq
    | ok myLayers =>
      rw [h1] at heq
      simp only [bind, Except.bind] at heq
      cases h2 : dictItemNat myLayers l with
      | error e => rw [h2] at heq; simp at heq
      | ok mySet =>
        rw [h2] at heq
        simp only [] at heq
        set ga : HNSWGraph α :=
          { g with neighbors := dictSet g.neighbors id (dictSet myLayers l (setAdd mySet nb)) }
          with hga
        have hwfa : WFGraph ga :=
          WFGraph_setAdd hwf (hsel nb (List.mem_cons_self _ _))
            (dictGet?_of_dictItem_ok h1) (dictGet?_of_dictItemNat_ok h2)
        cases h3 : dictItem ga.neighbors nb with
        | error e => rw [h3] at heq; simp [bind, Except.bind] at heq
        | ok nbLayers =>
          rw [h3] at heq
          simp only [bind, Except.bind] at heq
          cases h4 : dictItemNat nbLayers l with
          | error e => rw [h4] at heq; simp at heq
          | ok nbSet =>
            rw [h4] at heq
            simp only [] at heq
            have hwfb : WFGraph
                { ga with neighbors := dictSet ga.neighbors nb (dictSet nbLayers l (setAdd nbSet id)) } :=
              WFGraph_setAdd hwfa hid (dictGet?_of_dictItem_ok h3) (dictGet?_of_dictItemNat_ok h4)
            obtain ⟨hwf2, hn2, he2, hm2, hef2, hM2, hM02, hml2⟩ :=
              ih _ g2 heq hwfb hid (fun m hm => hsel m (List.mem_cons_of_mem _ hm))
            exact ⟨hwf2, hn2, he2, hm2, hef2, hM2, hM02, hml2⟩

/-- The per-layer insert loop preserves well-formedness and never touches
the node table. -/
theorem insertLoop_pres {id : String} {vector : List α} {level fuel : Nat} :
    ∀ (ls : List Nat) (g g2 : HNSWGraph α) (cd : String × α),
      insertLoop id vector level fuel g ls cd = .ok g2 →
      WFGraph g → nodeKey g id →
      WFGraph g2 ∧ g2.nodes = g.nodes ∧ g2.entry_point = g.entry_point ∧
        g2.max_layer = g.max_layer := by
  intro ls
  induction ls with
  | nil =>
    intro g g2 cd heq hwf _
    injection heq with h
    subst h
    exact ⟨hwf, rfl, rfl, rfl⟩
  | cons l ls2 ih =>
    intro g g2 cd heq hwf hid
    simp only [insertLoop] at heq
    cases hgl : greedyLoop g vector l fuel cd with
    | error e => rw [hgl] at heq; simp [bind, Except.bind] at heq
    | ok cd2 =>
      rw [hgl] at heq
      simp only [bind, Except.bind] at heq
      by_cases hll : l ≤ level
      · rw [if_pos hll] at heq
        cases hsl : searchLayer g vector cd2.1 g.ef_construction l fuel with
        | error e => rw [hsl] at heq; simp [bind, Except.bind] at heq
        | ok cands =>
          rw [hsl] at heq
          simp only [bind, Except.bind] at heq
          cases hca : connectAt id l g
              (select_neighbors cands (if l = 0 then g.M_max0 else g.M)) with
          | error e => rw [hca] at heq; simp at heq
          | ok g3 =>
            rw [hca] at heq
            have hselk : ∀ nb ∈ select_neighbors cands (if l = 0 then g.M_max0 else g.M),
                nodeKey g nb := by
              intro nb hnb
              obtain ⟨r, hrm, hre⟩ := mem_select_neighbors hnb
              exact hre ▸ searchLayer_results_keys hsl r hrm
            obtain ⟨hwf3, hn3, he3, hm3, _, _, _, _⟩ := connectAt_pres _ g g3 hca hwf hid hselk
            have hid3 : nodeKey g3 id := by
              unfold nodeKey
              rw [hn3]
              exact hid
            obtain ⟨hwf2, hn2, he2, hm2⟩ := ih g3 g2 cd2 heq hwf3 hid3
            exact ⟨hwf2, hn2.trans hn3, he2.trans he3, hm2.trans hm3⟩
      · rw [if_neg hll] at heq
        exact ih g g2 cd2 heq hwf hid

/-- The phase of `insert` after the node and its empty neighbor sets are
registered (hnsw.py 109-146), over an arbitrary graph state `g1`. -/
theorem hnswInsert_WF_aux {g1 g2 : HNSWGraph α} {id : String} {vector : List α}
    {level fuel : Nat} (hwf1 : WFGraph g1) (hidk1 : nodeKey g1 id)
    (h : (match g1.entry_point with
          | Option.none => Except.ok { g1 with entry_point := some id, max_layer := level }
          | some ep => do
              let v0 ← dictItem g1.nodes ep
              let d0 := g1.metric vector v0
              let g3 ← insertLoop id vector level fuel g1
                ((List.range (g1.max_layer + 1)).reverse) (ep, d0)
              if g3.max_layer < level then
                Except.ok { g3 with max_layer := level, entry_point := some id }
              else Except.ok g3) = .ok g2) :
    WFGraph g2 := by
  split at h
  · injection h with h2
    subst h2
    obtain ⟨_, hnb1, hcl1⟩ := hwf1
    refine ⟨?_, hnb1, hcl1⟩
    intro e2 he2
    simp at he2
    subst he2
    exact hidk1
  · rename_i ep _
    cases hv0 : dictItem g1.nodes ep with
    | error e => rw [hv0] at h; simp [bind, Except.bind] at h
    | ok v0 =>
      rw [hv0] at h
      simp only [bind, Except.bind] at h
      cases hloop : insertLoop id vector level fuel g1
          ((List.range (g1.max_layer + 1)).reverse) (ep, g1.metric vector v0) with
      | error e => rw [hloop] at h; simp at h
      | ok g3 =>
        rw [hloop] at h
        obtain ⟨hwf3, hn3, _, _⟩ := insertLoop_pres _ g1 g3 _ hloop hwf1 hidk1
        have hidk3 : nodeKey g3 id := by
          unfold nodeKey
          rw [hn3]
          exact hidk1
        have h4 : (if g3.max_layer < level then
            Except.ok { g3 with max_layer := level, entry_point := some id }
          else Except.ok g3) = Except.ok g2 := h
        by_cases hml : g3.max_layer < level
        · rw [if_pos hml] at h4
          injection h4 with h2
          subst h2
          obtain ⟨_, hnb3, hcl3⟩ := hwf3
          refine ⟨?_, hnb3, hcl3⟩
          intro e2 he2
          simp at he2
          subst he2
          exact hidk3
        · rw [if_neg hml] at h4
          injection h4 with h2
          exact h2 ▸ hwf3

/-- C5 support: a successful `insert` on a well-formed graph yields a
well-formed graph, so every index reachable through the public interface
satisfies the hypothesis of the search-shape theorem (the empty initial
graph is trivially well-formed). -/
theorem hnswInsert_WF {g g2 : HNSWGraph α} {id : String} {vector : List α} {rnd fuel : Nat}
    (hwf : WFGraph g) (h : hnswInsert g id vector rnd fuel = .ok g2) : WFGraph g2 := by
  obtain ⟨hentry, hnb, hcl⟩ := hwf
  unfold hnswInsert at h
  by_cases hdup : (dictGet? g.nodes id).isSome = true
  · rw [if_pos hdup] at h
    simp at h
  · rw [if_neg hdup] at h
    have hidk1 : nodeKey
        ({ g with
          nodes := dictSet g.nodes id vector,
          layers := addToLayers id (List.range (min rnd g.ml_max + 1)) g.layers,
          neighbors := dictSet g.neighbors id
            ((List.range (min rnd g.ml_max + 1)).map (fun l => (l, ([] : List String)))) } :
          HNSWGraph α) id :=
      isSome_dictSet_self g.nodes id vector
    have hwf1 : WFGraph
        ({ g with
          nodes := dictSet g.nodes id vector,
          layers := addToLayers id (List.range (min rnd g.ml_max + 1)) g.layers,
          neighbors := dictSet g.neighbors id
            ((List.range (min rnd g.ml_max + 1)).map (fun l => (l, ([] : List String)))) } :
          HNSWGraph α) := by
      refine ⟨?_, ?_, ?_⟩
      · intro ep hep
        exact isSome_dictSet_of _ _ (hentry ep hep)
      · intro p hp
        rcases mem_dictSet p hp with h2 | h2
        · exact isSome_dictSet_of _ _ (hnb p h2)
        · rw [h2]
          exact isSome_dictSet_self _ _ _
      · intro q hq r hr n hn
        rcases mem_dictSet q hq with h2 | h2
        · exact isSome_dictSet_of _ _ (hcl q h2 r hr n hn)
        · subst h2
          obtain ⟨l2, _, hl2⟩ := List.mem_map.mp hr
          rw [← hl2] at hn
          simp at hn
    exact hnswInsert_WF_aux hwf1 hidk1 h

/-- The graph `HNSWGraph.__init__` builds — no nodes, no layers, no
neighbors, no entry point — is well-formed. -/
theorem WFGraph_init (dim M M_max0 ef_construction ml_max : Nat)
    (metric : List α → List α → α) :
    WFGraph (⟨dim, M, M_max0, ef_construction, ml_max, metric, [], [], [],
      Option.none, 0⟩ : HNSWGraph α) := by
  refine ⟨?_, ?_, ?_⟩ <;> simp

end HNSWPreservation

/-! ## Claim theorems: HNSW -/

/-- C7 (code_bug evidence): after four successful inserts (ids a, b, c, d at
1-D positions 0, 4, -4, 1, all at layer 0) on a graph with `M = 1`,
`M_max0 = 2`, node "a" holds THREE layer-0 neighbors — the insert path adds
reverse edges without ever re-pruning the neighbor's set, so the claimed
bound `M_max0 = 2M` is violated. -/
theorem c7_degree_bound_violated :
    graph7.map (fun g => (neighborsAt g "a" 0).length) = .ok 3 ∧ 2 * emptyGraph7.M < 3 := by
  constructor
  · decide
  · decide

/-- C5: on every well-formed graph state, for every query, every `k ≥ 1` and
fuel beyond the loop measure, `search` returns (without error) a list of at
most `k` `(id, distance)` pairs in ascending distance order — and the empty
list, not an error, when the index is empty. -/
theorem c5_search_shape {α : Type} [LinearOrder α] [Inhabited α] (g : HNSWGraph α)
    (query : List α) (k fuel : Nat)
    (hwf : WFGraph g) (hk : 1 ≤ k) (hfuel : 2 + 2 * g.nodes.length ≤ fuel) :
    ∃ r, hnswSearch g query k fuel = .ok r ∧ r.length ≤ k ∧ Ascending r ∧
      (g.entry_point = Option.none → r = []) := by
  obtain ⟨hentry, hnb, hcl⟩ := hwf
  cases hep : g.entry_point with
  | none =>
    refine ⟨[], ?_, by simp, List.Pairwise.nil, fun _ => rfl⟩
    unfold hnswSearch
    rw [hep]
  | some ep =>
    have hred : hnswSearch g query k fuel =
        (if ep = "" then Except.ok [] else do
          let curr ← searchDescend g query fuel (List.range' 1 g.max_layer).reverse ep
          let rs ← searchLayer g query curr k 0 fuel
          pure ((rs.take k).map (fun r => (r.id, r.distance)))) := by
      unfold hnswSearch
      rw [hep]
    by_cases hemp : ep = ""
    · rw [hred, if_pos hemp]
      exact ⟨[], rfl, by simp, List.Pairwise.nil, fun _ => rfl⟩
    · rw [hred, if_neg hemp]
      have hepk : nodeKey g ep := hentry ep (by simp [hep])
      obtain ⟨curr, hcurr, hcurrk⟩ := searchDescend_spec g query fuel hnb hcl hfuel
        (List.range' 1 g.max_layer).reverse ep hepk
      obtain ⟨rs, hrs, _, _, hsorted⟩ :=
        searchLayer_spec g query curr k 0 fuel hnb hcl hk hcurrk hfuel
      refine ⟨(rs.take k).map (fun r => (r.id, r.distance)), ?_, ?_, ?_, ?_⟩
      · simp only [hcurr, bind, Except.bind, hrs]
        rfl
      · calc ((rs.take k).map (fun r => (r.id, r.distance))).length
            = (rs.take k).length := List.length_map _ _
          _ ≤ k := by simp [List.length_take]
      · unfold Ascending
        refine List.Pairwise.map _ (fun a b hab => hab) ?_
        exact (hsorted.sublist (List.take_sublist k rs))
      · intro habs
        simp at habs

/-- C5 (witness): the shape theorem applied to a concrete well-formed
two-node graph with `k = 1` and fuel 10. -/
theorem c5_search_shape_witness :
    ∃ r, hnswSearch graphW [1] 1 10 = .ok r ∧ r.length ≤ 1 ∧ Ascending r ∧
      (graphW.entry_point = Option.none → r = []) :=
  c5_search_shape graphW [1] 1 10 (by decide) (by decide) (by decide)

end SlowDB
